import Mathlib

/-!
Verification of the reconciliation engine of the `convenios_2` repository.

The embedding models the two reconciliation scripts:
  * `scripts/minerva/comb_trier_minerva_sg.py`  (TRIER x MINERVA, keyed by CPF)
  * `scripts/credcommerce/comb_trier_credcom_all.py` (TRIER x CREDCOM, keyed by
    branch+date with name-token matching)

Modelling conventions:
  * Python floats are modelled as rationals (`ℚ`); every monetary computation in
    the scripts (parsing decimal text, summing, comparing against the 0.05
    tolerance) is exact on the values the scripts produce, so the rational
    model is faithful at the granularity of the claims.
  * Python strings are modelled as `String` / `List Char`; helper functions
    (`str.strip`, `str.replace`, `float(...)`, regular expressions with
    `\d`, `\D`) are re-implemented below on `List Char` for ASCII text.
    `strip_accents` (NFKD + drop combining marks) is the identity on the ASCII
    texts exercised here and is modelled as such inside `nameTokens`.
  * pandas cells are modelled by `PyVal` (None / a number / NaN / text), and
    the pandas plumbing (`to_numeric` on the branch column, `parse_date_br`
    on the date column) is modelled by feeding the already-coerced optional
    values into the row structures; the functions the claims are about
    (`parse_brl_money`, `format_brl`, `normalize_cpf`, `format_cpf`,
    `name_tokens`, the matching loops, `read_existing_annotations` and the
    final row assembly in `main`) are translated statement by statement.
  * A raised exception is modelled as `none`: the minerva
    `build_conferencia_cpf_valor` drops rows with `dropna` WITHOUT resetting
    the index and then reads `a.at[i, ...]` for `i in range(len(a))`, a
    label-based access that raises `KeyError` whenever a dropped row precedes
    a surviving row; the builder therefore returns `Option (List Item)`,
    with `none` for the `KeyError` path.
-/

/-! ## Character and string primitives -/

/-- The numeric value of a decimal digit character (`ord(c) - ord('0')`). -/
def charVal (c : Char) : ℕ := c.toNat - 48

/-- The decimal digit character for `d < 10` (`chr(ord('0') + d)`). -/
def digitChar10 (d : ℕ) : Char := Char.ofNat (48 + d)

/-- Python `str.strip` / `float()` whitespace: space, tab, newline, CR, VT, FF. -/
def isPySpace (c : Char) : Bool :=
  c = ' ' ∨ c = '\t' ∨ c = '\n' ∨ c = '\r' ∨ c = '\x0b' ∨ c = '\x0c'

/-- Python `str.strip()`: drop whitespace from both ends. -/
def trimChars (l : List Char) : List Char :=
  ((l.dropWhile isPySpace).reverse.dropWhile isPySpace).reverse

/-- Python `str.strip()` on `String`. -/
def pyStripS (s : String) : String := String.mk (trimChars s.data)

/-- Worker for `pyReplace`: replace every non-overlapping occurrence of the
pattern `p :: ps`, scanning left to right.  The fuel argument (instantiated
with the input length) makes the recursion structural. -/
def pyReplaceAux (p : Char) (ps rep : List Char) : ℕ → List Char → List Char
  | 0, l => l
  | _ + 1, [] => []
  | fuel + 1, c :: cs =>
    if c = p ∧ ps.isPrefixOf cs then
      rep ++ pyReplaceAux p ps rep fuel (cs.drop ps.length)
    else
      c :: pyReplaceAux p ps rep fuel cs

/-- Python `str.replace(pat, rep)` for a non-empty pattern (all patterns used
by the scripts are non-empty; an empty pattern returns the string unchanged). -/
def pyReplace (pat rep l : List Char) : List Char :=
  match pat with
  | [] => l
  | p :: ps => pyReplaceAux p ps rep l.length l

/-- Split a character list at every occurrence of `c` (like Python
`s.split(c)`); always returns at least one (possibly empty) piece. -/
def splitOnChar (c : Char) : List Char → List (List Char)
  | [] => [[]]
  | x :: xs =>
    match splitOnChar c xs with
    | [] => [[]]
    | y :: ys => if x = c then [] :: y :: ys else (x :: y) :: ys

/-- Split at the first `e`/`E` (for the exponent part of a float literal). -/
def splitEOnce : List Char → List Char × Option (List Char)
  | [] => ([], none)
  | c :: cs =>
    if c = 'e' ∨ c = 'E' then ([], some cs)
    else
      let r := splitEOnce cs
      (c :: r.1, r.2)

/-- The natural number denoted by a big-endian list of decimal digit
characters (the value `float(digits)` gives a digit-only string). -/
def valDigits (l : List Char) : ℕ :=
  l.foldl (fun n c => 10 * n + charVal c) 0

/-- Little-endian decimal digits of `n`, with fuel for structural recursion
(any fuel `≥ n` gives the digits). -/
def decLE : ℕ → ℕ → List ℕ
  | _, 0 => []
  | 0, _ + 1 => []
  | fuel + 1, n + 1 => ((n + 1) % 10) :: decLE fuel ((n + 1) / 10)

/-- The value of a little-endian digit list. -/
def ofDigitsLE (ds : List ℕ) : ℕ := ds.foldr (fun d acc => d + 10 * acc) 0

/-- The decimal rendering of a natural number (`str(n)` for `n ≥ 0`). -/
def natDecimal (n : ℕ) : List Char :=
  if n = 0 then ['0'] else ((decLE n n).map digitChar10).reverse

/-- Insert `.` after every three characters of a reversed digit string:
worker for the thousands grouping of Python `format(x, ",")`. -/
def group3rev : List Char → List Char
  | a :: b :: c :: d :: rest => a :: b :: c :: '.' :: group3rev (d :: rest)
  | l => l

/-- Group a digit string in threes from the right with `.` separators (the
result of Python's `f"{v:,.2f}"` after the `,` → `.` swap in `format_brl`). -/
def group3 (l : List Char) : List Char := (group3rev l.reverse).reverse

/-- Magnitude part of Python `float()`: `D`, `D.`, `.D` or `D.D` where `D`
is a non-empty digit run. -/
def pyFloatMag (t : List Char) : Option ℚ :=
  match splitOnChar '.' t with
  | [a] =>
    if !a.isEmpty && a.all Char.isDigit then some (valDigits a) else none
  | [a, b] =>
    if a.isEmpty && b.isEmpty then none
    else if a.all Char.isDigit && b.all Char.isDigit then
      some ((valDigits a : ℚ) + (valDigits b : ℚ) / (10 : ℚ) ^ b.length)
    else none
  | _ => none

/-- A signed decimal integer (the exponent of a float literal). -/
def pyIntSigned (t : List Char) : Option ℤ :=
  match t with
  | '+' :: r => if !r.isEmpty && r.all Char.isDigit then some (valDigits r) else none
  | '-' :: r => if !r.isEmpty && r.all Char.isDigit then some (-(valDigits r : ℤ)) else none
  | r => if !r.isEmpty && r.all Char.isDigit then some (valDigits r) else none

/-- Python `float(s)` on the decimal grammar `[ws] [sign] mag [e int] [ws]`.
The `inf`/`nan`/hex forms Python also accepts cannot reach the call sites in
the scripts (every call feeds either a digit-and-dot string or a string that
fails this grammar and fails in Python as well). -/
def pyFloat (l0 : List Char) : Option ℚ :=
  let l := trimChars l0
  let sgn : ℚ × List Char :=
    match l with
    | c :: cs => if c = '+' then (1, cs) else if c = '-' then (-1, cs) else (1, c :: cs)
    | [] => (1, [])
  match splitEOnce sgn.2 with
  | (m, none) => (pyFloatMag m).map (fun q => sgn.1 * q)
  | (m, some ex) =>
    match pyFloatMag m, pyIntSigned ex with
    | some q, some e => some (sgn.1 * q * (10 : ℚ) ^ e)
    | _, _ => none

/-! ## The `PyVal` cell model -/

/-- A pandas cell as `parse_brl_money` receives it: `None`, a non-NaN number
(Python `int` or `float`), the float NaN, or a string. -/
inductive PyVal where
  | vnone : PyVal
  | num : ℚ → PyVal
  | nan : PyVal
  | vstr : String → PyVal
deriving DecidableEq, Inhabited

/-! ## Minerva normalizer (`comb_trier_minerva_sg.py`) -/

/-- `re.fullmatch(r"\d+(\.\d+)?", s)`: a plain dot-decimal number. -/
def plainNum (l : List Char) : Bool :=
  match splitOnChar '.' l with
  | [a] => !a.isEmpty && a.all Char.isDigit
  | [a, b] => !a.isEmpty && !b.isEmpty && a.all Char.isDigit && b.all Char.isDigit
  | _ => false

/-- The text pipeline of minerva's `parse_brl_money` (everything after the
numeric fast path): strip, reject `""`/`"-"`, drop `R$` and spaces, then
comma-decimal / plain-number / digits-with-cents-heuristic. -/
def parseBrlChars (l0 : List Char) : Option ℚ :=
  let l1 := trimChars l0
  if l1 = [] ∨ l1 = ['-'] then none
  else
    let s := pyReplace [' '] [] (pyReplace ['R', '$'] [] l1)
    if ',' ∈ s then
      pyFloat (pyReplace [','] ['.'] (pyReplace ['.'] [] s))
    else if plainNum s then
      pyFloat s
    else
      let ds := s.filter Char.isDigit
      if ds = [] then none
      else
        let n := valDigits ds
        if ds.length ≤ 3 then some (n : ℚ) else some ((n : ℚ) / 100)

/-- minerva `parse_brl_money`: `None` → none; a non-NaN number → its float
value; NaN fails the `not pd.isna(x)` guard and flows into the text pipeline
as `str(x) = "nan"` (which yields none); text → the text pipeline. -/
def parseBrlMoney : PyVal → Option ℚ
  | .vnone => none
  | .num q => some q
  | .nan => parseBrlChars ['n', 'a', 'n']
  | .vstr s => parseBrlChars s.data

/-- Digit characters of `format_brl`'s body for a non-negative amount of
`cents` hundredths: thousands-grouped integer part, decimal comma, two cent
digits (Python `f"{v:,.2f}"` after the separator swap). -/
def formatCents (cents : ℕ) : List Char :=
  group3 (natDecimal (cents / 100)) ++
    ',' :: [digitChar10 (cents % 100 / 10), digitChar10 (cents % 100 % 10)]

/-- minerva `format_brl`: None/NaN → `"-"`; otherwise `"R$ "` + the value
rendered with thousands dots and a decimal comma.  The rounding of
`f"{v:,.2f}"` is modelled as round-half-up on cents; every claim evaluates it
on exact cent values, where no rounding occurs. -/
def formatBrl : Option ℚ → String
  | none => "-"
  | some v =>
    let c : ℤ := ⌊v * 100 + 1 / 2⌋
    if c < 0 then String.mk ('R' :: '$' :: ' ' :: '-' :: formatCents c.natAbs)
    else String.mk ('R' :: '$' :: ' ' :: formatCents c.toNat)

/-- minerva `normalize_cpf`: None → none; strip non-digits, reject the empty
run, left-pad with zeros to 11, reject anything longer than 11 digits. -/
def normalizeCpf (x : Option String) : Option String :=
  match x with
  | none => none
  | some s =>
    let d := s.data.filter Char.isDigit
    if d = [] then none
    else
      let p := List.replicate (11 - d.length) '0' ++ d
      if p.length = 11 then some (String.mk p) else none

/-- minerva `format_cpf`: a string that is not 11 characters → `"-"`; an
11-digit string → `###.###.###-##`; an 11-character string containing a
non-digit has no 11-digit match for `re.sub`, so it is returned unchanged. -/
def formatCpf (s : String) : String :=
  if s.length ≠ 11 then "-"
  else if s.data.all Char.isDigit then
    String.mk (s.data.take 3 ++ '.' :: ((s.data.drop 3).take 3 ++ '.' ::
      (((s.data.drop 6).take 3) ++ '-' :: s.data.drop 9)))
  else s

/-- Does a string look like `###.###.###-##` (11 digits in 3-3-3-2 groups)? -/
def cpfPattern (s : String) : Bool :=
  match s.data with
  | [a, b, c, p1, d, e, f, p2, g, h, i, p3, j, k] =>
    ([a, b, c, d, e, f, g, h, i, j, k].all Char.isDigit) ∧
      p1 = '.' ∧ p2 = '.' ∧ p3 = '-'
  | _ => false

/-! ## Credcom normalizer and matcher (`comb_trier_credcom_all.py`) -/

/-- credcom `parse_brl_money`: numbers pass straight through (this version has
no NaN guard: a NaN input yields the float NaN, which fails every `≤`
comparison and formats as `"-"`, exactly as `none` does in this model); text
is stripped of `R$`/spaces, then dots are dropped and the comma becomes the
decimal point unconditionally. -/
def parseBrlMoneyCred : PyVal → Option ℚ
  | .vnone => none
  | .num q => some q
  | .nan => none
  | .vstr s =>
    let l1 := trimChars s.data
    if l1 = [] ∨ l1 = ['-'] then none
    else
      pyFloat (pyReplace [','] ['.'] (pyReplace ['.'] []
        (pyReplace [' '] [] (pyReplace ['R', '$'] [] l1))))

/-- credcom `name_tokens`: accent-strip (identity on ASCII), uppercase,
replace every character outside `[A-Z0-9]` and whitespace by a space, split
on whitespace and keep the tokens of length at least 2, as a set. -/
def nameTokens (s : String) : Finset String :=
  let u := s.data.map Char.toUpper
  let cleaned := u.map (fun c =>
    if ('A' ≤ c ∧ c ≤ 'Z') ∨ ('0' ≤ c ∧ c ≤ '9') then c else ' ')
  (((splitOnChar ' ' cleaned).filter (fun t => 2 ≤ t.length)).map String.mk).toFinset

/-- credcom `token_match_score`: 0 when either token set is empty, otherwise
the size of the intersection. -/
def tokenMatchScore (ta tb : Finset String) : ℕ :=
  if ta = ∅ ∨ tb = ∅ then 0 else (ta ∩ tb).card

/-- `VALUE_TOL = 0.05` (both scripts). -/
def valueTol : ℚ := 1 / 20

/-- A ledger record inside one credcom partition, after the parse columns
have been added: the client text, the installment number extracted by
`parse_parcela_trier` / `parse_parcela_credcom`, and the parsed amount. -/
structure CredRec where
  cliente : String
  parcelaNum : Option ℕ
  valorNum : Option ℚ
deriving DecidableEq, Inhabited

/-- The skip condition of the inner loop: both records carry an installment
number and the numbers differ (`int(tp) != int(cp)`). -/
def parcelaBlocked (a b : CredRec) : Bool :=
  match a.parcelaNum, b.parcelaNum with
  | some p, some q => p ≠ q
  | _, _ => false

/-- The score the loop computes for candidate `j` of the CREDCOM list. -/
def scoreAt (a : CredRec) (cg : List CredRec) (j : ℕ) : ℕ :=
  tokenMatchScore (nameTokens a.cliente) (nameTokens (cg.getD j default).cliente)

/-- One step of the `for j in range(len(cg))` scan: skip used indices, skip
installment-blocked candidates, keep `(best_j, best_score)` and replace it
only on a strictly greater score. -/
def scanB (a : CredRec) (cg : List CredRec) (used : Finset ℕ)
    (acc : Option ℕ × ℕ) (j : ℕ) : Option ℕ × ℕ :=
  if j ∈ used then acc
  else if parcelaBlocked a (cg.getD j default) then acc
  else if acc.2 < scoreAt a cg j then (some j, scoreAt a cg j) else acc

/-- The scan over the first `n` CREDCOM indices, starting from
`best_j = None, best_score = 0`. -/
def runBest (a : CredRec) (cg : List CredRec) (used : Finset ℕ) (n : ℕ) :
    Option ℕ × ℕ :=
  (List.range n).foldl (scanB a cg used) (none, 0)

/-- `best_j, best_score` after the full scan. -/
def findBest (a : CredRec) (cg : List CredRec) (used : Finset ℕ) : Option ℕ × ℕ :=
  runBest a cg used cg.length

/-- The accepted candidate: `best_j` when `best_j is not None and
best_score >= 2`, otherwise none. -/
def selectCandidate (a : CredRec) (cg : List CredRec) (used : Finset ℕ) : Option ℕ :=
  match findBest a cg used with
  | (some j, s) => if 2 ≤ s then some j else none
  | (none, _) => none

/-- One result of a partition's matching, by position: `matched i j` pairs
TRIER line `i` with CREDCOM line `j`; `onlyA i` is an unmatched TRIER line;
`onlyB j` a leftover CREDCOM line. -/
inductive MatchResult where
  | matched : ℕ → ℕ → MatchResult
  | onlyA : ℕ → MatchResult
  | onlyB : ℕ → MatchResult
deriving DecidableEq

/-- The `for i in range(len(tg))` loop: each TRIER line either consumes its
selected CREDCOM candidate (which is added to `used_c`) or yields an
unmatched result; returns the results in order plus the final `used_c`. -/
def matchTrier (cg : List CredRec) :
    List (ℕ × CredRec) → Finset ℕ → List MatchResult × Finset ℕ
  | [], used => ([], used)
  | (i, a) :: rest, used =>
    match selectCandidate a cg used with
    | some j =>
      ((MatchResult.matched i j) :: (matchTrier cg rest (insert j used)).1,
        (matchTrier cg rest (insert j used)).2)
    | none =>
      ((MatchResult.onlyA i) :: (matchTrier cg rest used).1,
        (matchTrier cg rest used).2)

/-- The whole per-partition matching of `build_conferencia_rows`: the TRIER
loop followed by one `onlyB` result for every CREDCOM index never marked
used.  (The source emits a display row at each result; the row content is
modelled separately.) -/
def matchPartition (tg cg : List CredRec) : List MatchResult :=
  let r := matchTrier cg tg.enum ∅
  r.1 ++ ((List.range cg.length).filter (fun j => decide (j ∉ r.2))).map MatchResult.onlyB

/-- Candidate `j` can be examined for record `a`: it is in range, unused, and
not installment-blocked. -/
def Eligible (a : CredRec) (cg : List CredRec) (used : Finset ℕ) (j : ℕ) : Prop :=
  j < cg.length ∧ j ∉ used ∧ parcelaBlocked a (cg.getD j default) = false

instance (a : CredRec) (cg : List CredRec) (used : Finset ℕ) (j : ℕ) :
    Decidable (Eligible a cg used j) := by unfold Eligible; infer_instance

/-- The status of a credcom matched pair (lines 232-235 of the source): OK
only when both amounts parsed and their difference is within tolerance. -/
def credMatchStatus (tVal cVal : Option ℚ) : String :=
  match tVal, cVal with
  | some tv, some cv =>
    if |tv - cv| ≤ valueTol then "✅ OK" else "⚠️ VALOR DIVERGENTE"
  | _, _ => "⚠️ VALOR DIVERGENTE"

/-- A credcom source row after column normalization, with the pandas-coerced
branch (`pd.to_numeric(..., errors="coerce")`), the parsed date (an opaque
day index from `parse_date_br`), the parsed installment number and the raw
amount cell. -/
structure CredRowIn where
  filial : Option ℤ
  cliente : String
  dataEmissao : Option ℕ
  parcelaNum : Option ℕ
  valor : PyVal
deriving DecidableEq, Inhabited

/-- The matcher-facing view of a credcom row (the `tokens` column is computed
from `cliente` on demand; the amount column is `parse_brl_money` of the cell). -/
def toCredRec (r : CredRowIn) : CredRec :=
  { cliente := r.cliente, parcelaNum := r.parcelaNum,
    valorNum := parseBrlMoneyCred r.valor }

/-- Lines 167-169 of the credcom source: `dropna(subset=["filial",
"Data_Emissao"])` — only a missing branch or date excludes a row; the parsed
amount is not consulted. -/
def dropInvalidCred (rows : List CredRowIn) : List CredRowIn :=
  rows.filter (fun r => r.filial.isSome && r.dataEmissao.isSome)

/-- The records of one `(filial, date)` partition, in source order. -/
def partitionOf (f : ℤ) (dt : ℕ) (rows : List CredRowIn) : List CredRec :=
  ((dropInvalidCred rows).filter
    (fun r => r.filial == some f && r.dataEmissao == some dt)).map toCredRec

/-! ## Stable sorting (Python `list.sort` / `sorted` are stable) -/

/-- Insert `x` after every element `y` with `le y x` (so equal keys keep
their original relative order when folding the input left to right). -/
def insertStable (le : α → α → Bool) (x : α) : List α → List α
  | [] => [x]
  | y :: ys => if le y x then y :: insertStable le x ys else x :: y :: ys

/-- Stable insertion sort under the total comparator `le`. -/
def stableSortBy (le : α → α → Bool) (l : List α) : List α :=
  l.foldl (fun acc x => insertStable le x acc) []

/-- Lexicographic code-point `<` on character lists, as Python compares
`str` values. -/
def charListLt : List Char → List Char → Bool
  | [], [] => false
  | [], _ :: _ => true
  | _ :: _, [] => false
  | a :: as, b :: bs =>
    if a.toNat < b.toNat then true
    else if b.toNat < a.toNat then false
    else charListLt as bs

/-- Code-point comparison of strings, as Python compares `str` values. -/
def strLe (x y : String) : Bool := !(charListLt y.data x.data)

/-! ## Minerva pipeline (`build_conferencia_cpf_valor` and `main`) -/

/-- A TRIER source row after column normalization: the branch after
`pd.to_numeric(..., errors="coerce")` (`NA` is `none`), the client text, the
raw CPF cell text (what `normalize_cpf` stringifies) and the raw amount cell. -/
structure ARow where
  filial : Option ℤ
  cliente : String
  cpf : String
  valor : PyVal
deriving DecidableEq

/-- A MINERVA source row: client text, raw CPF cell, raw amount cell. -/
structure BRow where
  cliente : String
  cpf : String
  valor : PyVal
deriving DecidableEq

/-- A TRIER row that survived `dropna(subset=["cpf_norm", "Valor_num"])`,
with its computed columns. -/
structure ALine where
  filial : Option ℤ
  cliente : String
  cpfNorm : String
  valorNum : ℚ
deriving DecidableEq

/-- `a["cpf_norm"] = ...; a["Valor_num"] = ...; a.dropna(subset=["cpf_norm",
"Valor_num"])`: rows whose CPF fails to normalize or whose amount fails to
parse are removed.  This is the bare survivor list (the dropped data). -/
def aDrop (aIn : List ARow) : List ALine :=
  aIn.filterMap (fun r =>
    match normalizeCpf (some r.cpf), parseBrlMoney r.valor with
    | some c, some v => some ⟨r.filial, r.cliente, c, v⟩
    | _, _ => none)

/-- The same drop, keeping each surviving row's original index label starting
from `n` — `dropna` does NOT reset the index, so survivors keep the row
labels they had in the input table. -/
def aDropFrom (n : ℕ) : List ARow → List (ℕ × ALine)
  | [] => []
  | r :: rs =>
    match normalizeCpf (some r.cpf), parseBrlMoney r.valor with
    | some c, some v => (n, ⟨r.filial, r.cliente, c, v⟩) :: aDropFrom (n + 1) rs
    | _, _ => aDropFrom (n + 1) rs

/-- The surviving TRIER table with its (non-reset) index labels. -/
def aDropL (aIn : List ARow) : List (ℕ × ALine) := aDropFrom 0 aIn

/-- `a.at[i, ...]`: strictly label-based lookup in the surviving table;
`none` is pandas raising `KeyError` for a missing label. -/
def aAt (a : List (ℕ × ALine)) (i : ℕ) : Option ALine :=
  (a.find? (fun p => p.1 == i)).map (fun p => p.2)

/-- The reads of the loop `for i in range(len(a)): a.at[i, "cpf_norm"]`
(lines 160-162) for a given index list: the first missing label aborts the
whole run (`KeyError`), modelled as `none`. -/
def readByLabelsAux (a : List (ℕ × ALine)) : List ℕ → Option (List ALine)
  | [] => some []
  | i :: is =>
    match aAt a i with
    | none => none
    | some r =>
      match readByLabelsAux a is with
      | none => none
      | some rs => some (r :: rs)

/-- The label loop over `range(len(a))`: succeeds with the rows in label
order exactly when every label `0 .. len(a)-1` survived the drop (i.e. no
dropped row precedes a survivor); otherwise the `KeyError`. -/
def readByLabels (a : List (ℕ × ALine)) : Option (List ALine) :=
  readByLabelsAux a (List.range a.length)

/-- The same drop for the MINERVA side, keeping `(cpf_norm, Valor_num,
cliente)`. -/
def bDrop (bIn : List BRow) : List (String × ℚ × String) :=
  bIn.filterMap (fun r =>
    match normalizeCpf (some r.cpf), parseBrlMoney r.valor with
    | some c, some v => some (c, v, r.cliente)
    | _, _ => none)

/-- First-occurrence list of the distinct CPF keys of a list. -/
def distinctKeys (l : List String) : List String :=
  l.foldl (fun acc c => if c ∈ acc then acc else acc ++ [c]) []

/-- `b.groupby("cpf_norm").agg({"Valor_num": "sum", "cliente": "first"})`:
one entry per CPF, in sorted key order (pandas sorts group keys), carrying
the summed amount and the first client text. -/
def bGroup (b : List (String × ℚ × String)) : List (String × ℚ × String) :=
  (stableSortBy strLe (distinctKeys (b.map (fun p => p.1)))).map (fun c =>
    let grp := b.filter (fun p => p.1 == c)
    (c, (grp.map (fun p => p.2.1)).foldl (· + ·) 0,
      ((grp.map (fun p => p.2.2)).headD "")))

/-- Dictionary lookup in the grouped MINERVA table (`b_map.get(cpf)`). -/
def bLookup (bG : List (String × ℚ × String)) (c : String) : Option (ℚ × String) :=
  (bG.find? (fun p => p.1 == c)).map (fun p => p.2)

/-- `a_by_cpf`: group the TRIER lines by CPF in first-appearance order,
keeping the line order inside each group (dict insertion order). -/
def aGroups (a : List ALine) : List (String × List ALine) :=
  (distinctKeys (a.map (fun r => r.cpfNorm))).map (fun c =>
    (c, a.filter (fun r => r.cpfNorm == c)))

/-- The matched-pair status of the minerva flow (lines 172-173):
`"✅ OK" if diff <= VALUE_TOL else "⚠️ VALOR DIVERGENTE"` where
`diff = abs(trier_sum - minerva_total)`. -/
def minervaStatus (trierSum minervaTotal : ℚ) : String :=
  if |trierSum - minervaTotal| ≤ valueTol then "✅ OK" else "⚠️ VALOR DIVERGENTE"

/-- The display-sort key of TRIER lines inside one CPF group:
`(-1 if filial is NA else filial, value, client)`. -/
def lineLe (x y : ALine) : Bool :=
  let fx : ℤ := match x.filial with | none => -1 | some f => f
  let fy : ℤ := match y.filial with | none => -1 | some f => f
  if fx ≠ fy then decide (fx < fy)
  else if x.valorNum ≠ y.valorNum then decide (x.valorNum < y.valorNum)
  else strLe x.cliente y.cliente

/-- One output item of `build_conferencia_cpf_valor` (the dict pushed into
`out`), before `main` formats it into a sheet row. -/
structure Item where
  filial : Option ℤ
  cpfDigits : String
  trierNome : String
  trierVal : Option ℚ
  minervaNome : String
  minervaVal : Option ℚ
  minervaTotalForKey : Option ℚ
  minervaNomeForKey : String
  statusCalc : String
deriving DecidableEq

/-- The items one CPF group of TRIER lines contributes: when MINERVA has the
CPF, the group-level status compares the TRIER sum with the MINERVA total and
the MINERVA columns are shown only on the first display-sorted line; when it
does not, every line becomes `SOMENTE TRIER`. -/
def itemsForGroup (bG : List (String × ℚ × String)) (c : String)
    (rows : List ALine) : List Item :=
  let sorted := stableSortBy lineLe rows
  match bLookup bG c with
  | some (total, cliente) =>
    let st := minervaStatus ((rows.map (fun r => r.valorNum)).foldl (· + ·) 0) total
    sorted.enum.map (fun ki =>
      { filial := ki.2.filial, cpfDigits := c, trierNome := ki.2.cliente,
        trierVal := some ki.2.valorNum,
        minervaNome := if ki.1 = 0 then cliente else "-",
        minervaVal := if ki.1 = 0 then some total else none,
        minervaTotalForKey := some total, minervaNomeForKey := cliente,
        statusCalc := st })
  | none =>
    sorted.map (fun r =>
      { filial := r.filial, cpfDigits := c, trierNome := r.cliente,
        trierVal := some r.valorNum, minervaNome := "-", minervaVal := none,
        minervaTotalForKey := none, minervaNomeForKey := "",
        statusCalc := "⚠️ SOMENTE TRIER" })

/-- The leftover loop over `b_map`: every grouped MINERVA CPF that no TRIER
group consumed yields one `SOMENTE MINERVA` item.  (A CPF of `b_map` is in
`used_minerva_cpfs` exactly when it is also a TRIER group key.) -/
def leftoverItems (bG : List (String × ℚ × String)) (aKeys : List String) :
    List Item :=
  (bG.filter (fun p => !(aKeys.contains p.1))).map (fun p =>
    { filial := none, cpfDigits := p.1, trierNome := "-", trierVal := none,
      minervaNome := p.2.2, minervaVal := some p.2.1,
      minervaTotalForKey := some p.2.1, minervaNomeForKey := p.2.2,
      statusCalc := "⚠️ SOMENTE MINERVA" })

/-- `out.sort(key=...)`: sort the items by
`(format_cpf(cpf), status, trier_name, minerva_name)`. -/
def itemLe (x y : Item) : Bool :=
  if formatCpf x.cpfDigits ≠ formatCpf y.cpfDigits then
    strLe (formatCpf x.cpfDigits) (formatCpf y.cpfDigits) 
  else if x.statusCalc ≠ y.statusCalc then strLe x.statusCalc y.statusCalc
  else if x.trierNome ≠ y.trierNome then strLe x.trierNome y.trierNome
  else strLe x.minervaNome y.minervaNome

/-- The computation of `build_conferencia_cpf_valor` after the label loop
succeeded (so label `i` = position `i` in the working table `a`): group
MINERVA by CPF, group TRIER by CPF, emit the per-group items then the
MINERVA leftovers, and sort for display. -/
def buildItems (a : List ALine) (bIn : List BRow) : List Item :=
  let bG := bGroup (bDrop bIn)
  let groups := aGroups a
  stableSortBy itemLe
    ((groups.map (fun g => itemsForGroup bG g.1 g.2)).flatten ++
      leftoverItems bG (groups.map (fun g => g.1)))

/-- `build_conferencia_cpf_valor`: drop unparsable rows (keeping the original
index labels, as `dropna` does), run the label-based
`for i in range(len(a)): a.at[i, "cpf_norm"]` loop — which raises `KeyError`
(`none`) whenever a dropped row precedes a survivor — and, on success,
build and sort the output items. -/
def buildConferenciaCpfValor (aIn : List ARow) (bIn : List BRow) :
    Option (List Item) :=
  match readByLabels (aDropL aIn) with
  | none => none
  | some a => some (buildItems a bIn)

/-! ## Minerva merge-on-rewrite (`read_existing_annotations` and `main`) -/

/-- `row = row + [""] * (8 - len(row))`. -/
def padRow (row : List String) : List String :=
  row ++ List.replicate (8 - row.length) ""

/-- Association-list lookup of a stored annotation
(`cpf_digits in annotations` / `annotations[cpf_digits]`). -/
def lookupPair (ann : List (String × String)) (c : String) : Option String :=
  (ann.find? (fun p => p.1 == c)).map (fun p => p.2)

/-- Replace the value stored for `c` (only reachable from the dead second
branch of `read_existing_annotations`). -/
def assocSet (ann : List (String × String)) (c v : String) : List (String × String) :=
  ann.map (fun p => if p.1 == c then (c, v) else p)

/-- One persisted row's contribution to the annotation map: pad the row to 8
cells, normalize the CPF in column B, strip the annotation in column H; store
it when the CPF is new and the annotation non-empty (the second branch — the
CPF is present with an empty stored value — can never fire because only
non-empty values are stored, but it is modelled as written). -/
def annStep (ann : List (String × String)) (row : List String) :
    List (String × String) :=
  match normalizeCpf (some ((padRow row).getD 1 (""))) with
  | none => ann
  | some cpf =>
    if (lookupPair ann cpf) = none ∧ pyStripS ((padRow row).getD 7 ("")) ≠ "" then
      ann ++ [(cpf, pyStripS ((padRow row).getD 7 ("")))]
    else if pyStripS ((padRow row).getD 7 ("")) ≠ "" ∧ (lookupPair ann cpf) = some "" then
      assocSet ann cpf (pyStripS ((padRow row).getD 7 ("")))
    else ann

/-- `read_existing_annotations`: skip the header and fold the remaining
persisted rows into a CPF-keyed annotation map (first non-empty annotation
per CPF wins). -/
def readExistingAnnotations (values : List (List String)) : List (String × String) :=
  (values.drop 1).foldl annStep []

/-- `annotations.get(cpf_digits, "")`. -/
def lookupAnnot (ann : List (String × String)) (c : String) : String :=
  (lookupPair ann c).getD ""

/-- The row-building loop of `main` (lines 337-363): for every computed item,
format branch, CPF and amounts, look the annotation up by CPF alone, and
always use the freshly calculated status. -/
def mainRows (items : List Item) (persisted : List (List String)) :
    List (List String) :=
  let annotations := readExistingAnnotations persisted
  items.map (fun d =>
    [ (match d.filial with | none => "-" | some f => toString f),
      formatCpf d.cpfDigits,
      d.trierNome,
      formatBrl d.trierVal,
      d.minervaNome,
      (match d.minervaVal with | none => "-" | some v => formatBrl (some v)),
      d.statusCalc,
      lookupAnnot annotations d.cpfDigits ])

/-! ## Concrete runs used by the counterexamples -/

/-- TRIER input of the C1 scenario: one line, CPF 12345678901, amount 100. -/
def aExC1 : List ARow := [⟨some 1, "JOAO", "12345678901", .vstr ("100,00")⟩]

/-- MINERVA input of the C1 scenario: the same CPF, the same total. -/
def bExC1 : List BRow := [⟨"JOAO X", "12345678901", .vstr ("100,00")⟩]

/-- Persisted table of the C1 scenario: the header plus the previous run's
single row, whose STATUS cell a user manually set to `⚠️ VALOR DIVERGENTE`. -/
def persistedC1 : List (List String) :=
  [["Filial", "CPF", "TRIER", "Valor", "MINERVA", "Valor", "STATUS", "Anotações"],
   ["1", "123.456.789-01", "JOAO", "R$ 100,00", "JOAO X", "R$ 100,00",
    "⚠️ VALOR DIVERGENTE", ""]]

/-- TRIER input of the C2 scenario: two lines of one CPF, split by branch. -/
def aExC2 : List ARow :=
  [⟨some 1, "JOAO", "12345678901", .vstr ("50,00")⟩,
   ⟨some 2, "JOAO", "12345678901", .vstr ("60,00")⟩]

/-- MINERVA input of the C2 scenario: the aggregate total of that CPF. -/
def bExC2 : List BRow := [⟨"JOAO M", "12345678901", .vstr ("110,00")⟩]

/-- Persisted table of the C2 scenario: the previous run's two rows carrying
two different user annotations on two different identity keys of one CPF. -/
def persistedC2 : List (List String) :=
  [["Filial", "CPF", "TRIER", "Valor", "MINERVA", "Valor", "STATUS", "Anotações"],
   ["2", "123.456.789-01", "JOAO", "R$ 60,00", "-", "-", "✅ OK", "NOTA1"],
   ["1", "123.456.789-01", "JOAO", "R$ 50,00", "JOAO M", "R$ 110,00", "✅ OK", "NOTA2"]]

/-- Credcom TRIER input of the C5 scenario: valid branch and date, but an
amount cell that does not parse. -/
def tExC5 : List CredRowIn := [⟨some 1, "JOAO DA SILVA", some 0, none, .vstr ("abc")⟩]

/-- Credcom CREDCOM input of the C5 scenario: a record sharing two name
tokens with the TRIER record. -/
def cExC5 : List CredRowIn := [⟨some 1, "JOAO SILVA X", some 0, none, .vstr ("100,00")⟩]

/-- Minerva TRIER row with an unparsable amount (the C5 crash scenario). -/
def aBadC5 : ARow := ⟨some 1, "JOAO", "12345678901", .vstr ("abc")⟩

/-- Minerva TRIER row with a valid CPF and amount, placed after the
unparsable one in the C5 crash scenario. -/
def aGoodC5 : ARow := ⟨some 1, "MARIA", "10987654321", .vstr ("50,00")⟩

/-! ## Claim theorems -/

unseal Rat.add Rat.mul Rat.inv Rat.sub Rat.ofScientific

/-- Claim C9 (confirmed): for a matched pair whose two amounts parsed, the
status is OK exactly when the absolute difference is at most the tolerance
0.05, in both flows; the boundary itself (difference exactly 0.05) is OK. -/
theorem claim9_tolerance_boundary :
    (∀ tv cv : ℚ,
      (credMatchStatus (some tv) (some cv) = "✅ OK" ↔ |tv - cv| ≤ valueTol) ∧
      (minervaStatus tv cv = "✅ OK" ↔ |tv - cv| ≤ valueTol)) ∧
    credMatchStatus (some (21 / 20)) (some 1) = "✅ OK" ∧
    minervaStatus (21 / 20) 1 = "✅ OK" := by
  refine ⟨fun tv cv => ⟨?_, ?_⟩, by decide, by decide⟩
  · show (if |tv - cv| ≤ valueTol then "✅ OK" else "⚠️ VALOR DIVERGENTE") = "✅ OK" ↔ _
    split_ifs with h
    · exact iff_of_true rfl h
    · exact iff_of_false (by decide) h
  · show (if |tv - cv| ≤ valueTol then "✅ OK" else "⚠️ VALOR DIVERGENTE") = "✅ OK" ↔ _
    split_ifs with h
    · exact iff_of_true rfl h
    · exact iff_of_false (by decide) h

/-- Counterexample to claim C6 as stated: the four-digit text `"15000"`
matches the plain-number branch and parses to 15000.0, not to 150.00. -/
theorem claim6_bare_digits_cex :
    parseBrlMoney (.vstr ("15000")) = some 15000 ∧ ((15000 : ℚ) ≠ 150) := by
  exact ⟨by decide, by decide⟩

/-- Claim C6 (corrected): `"1.234,56"` parses with dot as thousands and comma
as decimal; a bare digit string matches the plain-number branch and parses
directly regardless of length (`"15000"` → 15000.0, `"250"` → 250.0); the
cents heuristic (a digit run of more than 3 digits divided by 100, of at most
3 digits taken as whole units) applies only to text that is neither
comma-decimal nor a plain dot-decimal number, such as `"#15000"` → 150.0 and
`"#250"` → 250.0. -/
theorem claim6_text_amount_rules :
    parseBrlMoney (.vstr ("1.234,56")) = some (123456 / 100) ∧
    parseBrlMoney (.vstr ("15000")) = some 15000 ∧
    parseBrlMoney (.vstr ("250")) = some 250 ∧
    parseBrlMoney (.vstr ("#15000")) = some 150 ∧
    parseBrlMoney (.vstr ("#250")) = some 250 := by
  exact ⟨by decide, by decide, by decide, by decide, by decide⟩

/-- Counterexample to claim C10 as stated: the text `"15000"` does not parse
to 150.0, so no factor-100 discrepancy arises between the number 15000 and
the text `"15000"`. -/
theorem claim10_numeric_vs_text_cex :
    parseBrlMoney (.num 15000) = some 15000 ∧
    ¬ parseBrlMoney (.vstr ("15000")) = some 150 := by
  exact ⟨rfl, by decide⟩

/-- Claim C10 (corrected): an input that is already a non-NaN number is
returned as-is, bypassing every text rule; but the text `"15000"` also
parses to 15000.0 through the plain-number branch, so numeric and text
deliveries of a bare digit cell agree (the cents heuristic only affects text
failing the plain-number pattern). -/
theorem claim10_numeric_passthrough :
    (∀ q : ℚ, parseBrlMoney (.num q) = some q) ∧
    parseBrlMoney (.vstr ("15000")) = some 15000 ∧
    parseBrlMoney (.num 15000) = some 15000 := by
  exact ⟨fun q => rfl, by decide, rfl⟩

set_option maxRecDepth 8000 in
/-- Counterexample to claim C1 as stated: the persisted row carries the
user-edited status `⚠️ VALOR DIVERGENTE` on the same identity (first six
columns) as the newly computed row, whose recomputed status is OK — and the
written status is the computed `✅ OK`, not the user's value. -/
theorem claim1_override_ignored_cex :
    (buildConferenciaCpfValor aExC1 bExC1).isSome = true ∧
    ((mainRows ((buildConferenciaCpfValor aExC1 bExC1).getD []) persistedC1).getD 0 []).take 6
        = (persistedC1.getD 1 []).take 6 ∧
    (persistedC1.getD 1 []).getD 6 ("") = "⚠️ VALOR DIVERGENTE" ∧
    ((mainRows ((buildConferenciaCpfValor aExC1 bExC1).getD []) persistedC1).getD 0 []).getD 6 ("")
        = "✅ OK" ∧
    ¬ ((mainRows ((buildConferenciaCpfValor aExC1 bExC1).getD []) persistedC1).getD 0 []).getD 6 ("")
        = "⚠️ VALOR DIVERGENTE" := by
  exact ⟨by decide, by decide, by decide, by decide, by decide⟩

/-- Claim C1 (corrected): the rewrite applies no status override at all —
whatever the persisted table holds, every written row's STATUS column is the
freshly computed status (only the annotation column is recovered from the
persisted table, keyed by CPF). -/
theorem claim1_status_always_computed :
    ∀ (items : List Item) (persisted : List (List String)),
      (mainRows items persisted).map (fun r => r.getD 6 ("")) =
        items.map (fun d => d.statusCalc) := by
  intro items persisted
  unfold mainRows
  rw [List.map_map]
  rfl

set_option maxRecDepth 8000 in
/-- Counterexample to claim C2 as stated: the persisted table has two rows of
one CPF on two different identity keys with annotations `NOTA1` and `NOTA2`;
the next run's row with the second row's identity carries `NOTA1` (the first
non-empty annotation of that CPF), not its own `NOTA2`. -/
theorem claim2_annotation_cex :
    (buildConferenciaCpfValor aExC2 bExC2).isSome = true ∧
    ((mainRows ((buildConferenciaCpfValor aExC2 bExC2).getD []) persistedC2).getD 1 []).take 6
        = (persistedC2.getD 2 []).take 6 ∧
    (persistedC2.getD 2 []).getD 7 ("") = "NOTA2" ∧
    ((mainRows ((buildConferenciaCpfValor aExC2 bExC2).getD []) persistedC2).getD 1 []).getD 7 ("")
        = "NOTA1" ∧
    (("NOTA1" : String) ≠ "NOTA2") := by
  exact ⟨by decide, by decide, by decide, by decide, by decide⟩

/-- Specification-side reading of one persisted row's annotation for a CPF
(for comparison with `read_existing_annotations`): the row contributes its
stripped column-H annotation when its column-B CPF normalizes to the given
CPF and the annotation is non-empty. -/
def annOf (row : List String) (cpf : String) : Option String :=
  match normalizeCpf (some ((padRow row).getD 1 (""))) with
  | some c =>
    if c = cpf ∧ pyStripS ((padRow row).getD 7 ("")) ≠ "" then
      some (pyStripS ((padRow row).getD 7 ("")))
    else none
  | none => none

/-- The first non-empty annotation among the rows for a given CPF. -/
def firstAnnotFor (rows : List (List String)) (cpf : String) : Option String :=
  rows.findSome? (fun row => annOf row cpf)

/-- A stored annotation entry always exists in the accumulator it was looked
up from. -/
theorem lookupPair_mem {ann : List (String × String)} {c v : String}
    (h : lookupPair ann c = some v) : ∃ p ∈ ann, p.1 = c ∧ p.2 = v := by
  unfold lookupPair at h
  cases hf : ann.find? (fun p => p.1 == c) with
  | none => rw [hf] at h; cases h
  | some p =>
    rw [hf] at h
    refine ⟨p, List.mem_of_find?_eq_some hf, ?_, ?_⟩
    · have hp := List.find?_some hf
      exact eq_of_beq hp
    · cases h; rfl


/-- Lookup in an annotation map extended by one entry at the end. -/
theorem lookupPair_append_single (acc : List (String × String)) (c v cpf : String) :
    lookupPair (acc ++ [(c, v)]) cpf =
      match lookupPair acc cpf with
      | some w => some w
      | none => if c = cpf then some v else none := by
  unfold lookupPair
  rw [List.find?_append]
  by_cases hc : c = cpf
  · subst hc
    cases hf : acc.find? (fun p => p.1 == c) with
    | none => simp [hf, List.find?]
    | some p => simp [hf]
  · have hbeq : (c == cpf) = false := beq_eq_false_iff_ne.mpr hc
    cases hf : acc.find? (fun p => p.1 == cpf) with
    | none => simp [hf, List.find?, hbeq, hc]
    | some p => simp [hf]

/-- The annotation fold of `read_existing_annotations` stores only non-empty
values, and looking a CPF up in the folded map returns the accumulator's
value when present, else the first non-empty annotation for that CPF among
the folded rows. -/
theorem annFold_props (rows : List (List String)) :
    ∀ (acc : List (String × String)), (∀ p ∈ acc, p.2 ≠ "") →
      (∀ p ∈ rows.foldl annStep acc, p.2 ≠ "") ∧
      (∀ cpf, lookupPair (rows.foldl annStep acc) cpf =
        match lookupPair acc cpf with
        | some w => some w
        | none => firstAnnotFor rows cpf) := by
  induction rows with
  | nil =>
    intro acc hacc
    refine ⟨hacc, fun cpf => ?_⟩
    cases h : lookupPair acc cpf <;> simp [firstAnnotFor, h]
  | cons row rest ih =>
    intro acc hacc
    rw [List.foldl_cons]
    cases hn : normalizeCpf (some ((padRow row).getD 1 (""))) with
    | none =>
      have hann : ∀ cpf, annOf row cpf = none := by
        intro cpf
        unfold annOf
        rw [hn]
      have ha : annStep acc row = acc := by
        simp only [annStep, hn]
      rw [ha]
      obtain ⟨h1, h2⟩ := ih acc hacc
      refine ⟨h1, fun cpf => ?_⟩
      have hfa : firstAnnotFor (row :: rest) cpf = firstAnnotFor rest cpf := by
        unfold firstAnnotFor
        simp only [List.findSome?_cons, hann]
      rw [h2 cpf, hfa]
    | some c =>
      by_cases hb1 : lookupPair acc c = none ∧ pyStripS ((padRow row).getD 7 ("")) ≠ ""
      · have ha : annStep acc row = acc ++ [(c, pyStripS ((padRow row).getD 7 ("")))] := by
          simp only [annStep, hn, if_pos hb1]
        rw [ha]
        have hacc' : ∀ p ∈ acc ++ [(c, pyStripS ((padRow row).getD 7 ("")))], p.2 ≠ "" := by
          intro p hp
          rcases List.mem_append.mp hp with h | h
          · exact hacc p h
          · rw [List.mem_singleton.mp h]
            exact hb1.2
        obtain ⟨h1, h2⟩ := ih _ hacc'
        refine ⟨h1, fun cpf => ?_⟩
        rw [h2 cpf, lookupPair_append_single]
        cases hl : lookupPair acc cpf with
        | some w => rfl
        | none =>
          by_cases hc : c = cpf
          · subst hc
            have hann : annOf row c = some (pyStripS ((padRow row).getD 7 (""))) := by
              simp only [annOf, hn]
              rw [if_pos (And.intro trivial hb1.2)]
            have hfa : firstAnnotFor (row :: rest) c =
                some (pyStripS ((padRow row).getD 7 (""))) := by
              unfold firstAnnotFor
              simp only [List.findSome?_cons, hann]
            rw [hfa]
            simp
          · have hann : annOf row cpf = none := by
              simp only [annOf, hn]
              exact if_neg (fun hand => hc hand.1)
            have hfa : firstAnnotFor (row :: rest) cpf = firstAnnotFor rest cpf := by
              unfold firstAnnotFor
              simp only [List.findSome?_cons, hann]
            rw [hfa]
            simp [hc]
      · have hno2 : ¬ (pyStripS ((padRow row).getD 7 ("")) ≠ "" ∧
            lookupPair acc c = some "") := by
          rintro ⟨-, hsome⟩
          obtain ⟨p, hp, -, hpv⟩ := lookupPair_mem hsome
          exact hacc p hp hpv
        have ha : annStep acc row = acc := by
          simp only [annStep, hn, if_neg hb1, if_neg hno2]
        rw [ha]
        obtain ⟨h1, h2⟩ := ih acc hacc
        refine ⟨h1, fun cpf => ?_⟩
        rw [h2 cpf]
        cases hl : lookupPair acc cpf with
        | some w => rfl
        | none =>
          have hcond : ¬ (c = cpf ∧ pyStripS ((padRow row).getD 7 ("")) ≠ "") := by
            rintro ⟨hceq, hne⟩
            subst hceq
            exact hb1 ⟨hl, hne⟩
          have hann : annOf row cpf = none := by
            simp only [annOf, hn]
            exact if_neg hcond
          have hfa : firstAnnotFor (row :: rest) cpf = firstAnnotFor rest cpf := by
            unfold firstAnnotFor
            simp only [List.findSome?_cons, hann]
          rw [hfa]

/-- Claim C2 (corrected): annotations are keyed by CPF alone, not by the full
identity key — every output row receives the annotation stored for its CPF,
and the stored annotation is the first non-empty annotation among the
persisted data rows with that CPF (annotations of later rows of the same CPF
are discarded); within one CPF carrying one non-empty annotation it is
carried over verbatim. -/
theorem claim2_annotation_keyed_by_cpf :
    (∀ (items : List Item) (persisted : List (List String)),
      (mainRows items persisted).map (fun r => r.getD 7 ("")) =
        items.map (fun d => lookupAnnot (readExistingAnnotations persisted) d.cpfDigits)) ∧
    (∀ (values : List (List String)) (cpf : String),
      lookupPair (readExistingAnnotations values) cpf =
        firstAnnotFor (values.drop 1) cpf) := by
  constructor
  · intro items persisted
    unfold mainRows
    rw [List.map_map]
    rfl
  · intro values cpf
    have h := (annFold_props (values.drop 1) [] (by simp)).2 cpf
    unfold readExistingAnnotations
    rw [h]
    rfl

/-- Counterexample to claim C5 as stated: in the credcom flow a TRIER record
whose amount cell does not parse (here the text `"abc"`) survives the
pre-matching drop (which only checks branch and date) and is paired into a
`Matched` result. -/
theorem claim5_credcom_matched_cex :
    parseBrlMoneyCred (.vstr ("abc")) = none ∧
    (partitionOf 1 0 tExC5).length = 1 ∧
    ((partitionOf 1 0 tExC5).getD 0 default).valorNum = none ∧
    matchPartition (partitionOf 1 0 tExC5) (partitionOf 1 0 cExC5) =
      [MatchResult.matched 0 0] := by
  exact ⟨by decide, by decide, by decide, by decide⟩

/-- The one-step equation of `aDropFrom` on a cons cell. -/
theorem aDropFrom_cons (n : ℕ) (r : ARow) (rs : List ARow) :
    aDropFrom n (r :: rs) =
      match normalizeCpf (some r.cpf), parseBrlMoney r.valor with
      | some c, some v =>
        (n, ⟨r.filial, r.cliente, c, v⟩) :: aDropFrom (n + 1) rs
      | _, _ => aDropFrom (n + 1) rs := rfl

/-- `aDropFrom` splits over append, shifting the label base by the length of
the first part. -/
theorem aDropFrom_append (xs ys : List ARow) :
    ∀ n, aDropFrom n (xs ++ ys) = aDropFrom n xs ++ aDropFrom (n + xs.length) ys := by
  induction xs with
  | nil =>
    intro n
    simp only [List.nil_append, List.length_nil, Nat.add_zero]
    rfl
  | cons r rs ih =>
    intro n
    have harith : n + 1 + rs.length = n + (r :: rs).length := by
      simp only [List.length_cons]
      omega
    rw [List.cons_append, aDropFrom_cons, aDropFrom_cons]
    cases hc : normalizeCpf (some r.cpf) <;>
      cases hv : parseBrlMoney r.valor <;>
      simp only [hc, hv, ih (n + 1), harith, List.cons_append]

/-- The surviving values do not depend on the label base: stripping the
labels from `aDropFrom` gives `aDrop`. -/
theorem aDropFrom_values (l : List ARow) :
    ∀ n, (aDropFrom n l).map (fun p => p.2) = aDrop l := by
  induction l with
  | nil => intro n; rfl
  | cons r rs ih =>
    intro n
    have ih2 := ih (n + 1)
    unfold aDrop
    unfold aDrop at ih2
    rw [aDropFrom_cons, List.filterMap_cons]
    cases hc : normalizeCpf (some r.cpf) <;>
      cases hv : parseBrlMoney r.valor <;>
      simp only [hc, hv, List.map_cons, ih2]

/-- Every label produced by `aDropFrom n l` lies in `[n, n + l.length)`. -/
theorem aDropFrom_label_bounds (l : List ARow) :
    ∀ n p, p ∈ aDropFrom n l → n ≤ p.1 ∧ p.1 < n + l.length := by
  induction l with
  | nil => intro n p h; simp [aDropFrom] at h
  | cons r rs ih =>
    intro n p h
    rw [aDropFrom_cons] at h
    simp only [List.length_cons]
    cases hc : normalizeCpf (some r.cpf) <;>
      cases hv : parseBrlMoney r.valor <;>
      simp only [hc, hv] at h
    · have := ih (n + 1) p h
      omega
    · have := ih (n + 1) p h
      omega
    · have := ih (n + 1) p h
      omega
    · rcases List.mem_cons.mp h with rfl | hmem
      · refine ⟨Nat.le_refl n, ?_⟩
        show n < n + (rs.length + 1)
        omega
      · have := ih (n + 1) p hmem
        omega

/-- `a.at[i, ...]` succeeds exactly when some surviving row carries label `i`. -/
theorem aAt_isSome_iff (a : List (ℕ × ALine)) (i : ℕ) :
    (aAt a i).isSome = true ↔ ∃ p ∈ a, p.1 = i := by
  constructor
  · intro h
    unfold aAt at h
    cases hfind : a.find? (fun p => p.1 == i) with
    | none =>
      rw [hfind] at h
      exact Bool.noConfusion h
    | some q =>
      refine ⟨q, List.mem_of_find?_eq_some hfind, ?_⟩
      have hq := List.find?_some hfind
      exact eq_of_beq hq
  · rintro ⟨p, hp, hpi⟩
    unfold aAt
    cases hfind : a.find? (fun p => p.1 == i) with
    | none =>
      exfalso
      have hnp := List.find?_eq_none.mp hfind p hp
      simp [hpi] at hnp
    | some q => rfl

/-- If the label loop did not raise, every requested label was present. -/
theorem readByLabelsAux_ne_none (a : List (ℕ × ALine)) :
    ∀ ixs : List ℕ, readByLabelsAux a ixs ≠ none →
      ∀ i ∈ ixs, (aAt a i).isSome = true := by
  intro ixs
  induction ixs with
  | nil => intro _ i hi; cases hi
  | cons j js ih =>
    intro h i hi
    unfold readByLabelsAux at h
    cases hj : aAt a j with
    | none =>
      simp only [hj] at h
      exact absurd rfl h
    | some r =>
      simp only [hj] at h
      cases hrec : readByLabelsAux a js with
      | none =>
        simp only [hrec] at h
        exact absurd rfl h
      | some rs =>
        rcases List.mem_cons.mp hi with rfl | hmem
        · rw [hj]; rfl
        · exact ih (by simp [hrec]) i hmem

/-- Removing an unparsable record from the TRIER input shifts the later
labels down by one but leaves the surviving data untouched. -/
theorem aDropL_values_erase (xs ys : List ARow) (r : ARow)
    (h : parseBrlMoney r.valor = none) :
    (aDropL (xs ++ r :: ys)).map (fun p => p.2) =
      (aDropL (xs ++ ys)).map (fun p => p.2) := by
  unfold aDropL
  rw [aDropFrom_append, aDropFrom_append, List.map_append, List.map_append]
  congr 1
  have hmid : aDropFrom (0 + xs.length) (r :: ys) =
      aDropFrom (0 + xs.length + 1) ys := by
    rw [aDropFrom_cons]
    cases hc : normalizeCpf (some r.cpf) <;> simp only [hc, h]
  rw [hmid, aDropFrom_values, aDropFrom_values]

set_option maxRecDepth 8000 in
/-- Claim C5 (code bug): the minerva drop does remove every unparsable-amount
record from the surviving data, and an unparsable record at the end of the
TRIER table is excluded silently — but the exclusion is not silent in
general: `dropna` keeps the original index labels while the following loop
reads labels `0 .. len(a)-1` with `a.at`, so whenever any surviving record
follows a dropped one the run raises `KeyError` (modelled as `none`), as the
concrete two-row instance shows; dropping an unparsable MINERVA record is
harmless (that table is only grouped); and the credcom flow does not exclude
by amount at all — its pre-matching drop checks only branch and date. -/
theorem claim5_unparsable_handling :
    (∀ (xs ys : List ARow) (r : ARow),
      parseBrlMoney r.valor = none →
        (aDropL (xs ++ r :: ys)).map (fun p => p.2) =
          (aDropL (xs ++ ys)).map (fun p => p.2)) ∧
    (∀ (xs : List ARow) (r : ARow) (b : List BRow),
      parseBrlMoney r.valor = none →
        buildConferenciaCpfValor (xs ++ [r]) b = buildConferenciaCpfValor xs b) ∧
    (∀ (xs ys : List ARow) (r : ARow) (b : List BRow),
      parseBrlMoney r.valor = none → aDrop ys ≠ [] →
        buildConferenciaCpfValor (xs ++ r :: ys) b = none) ∧
    (parseBrlMoney aBadC5.valor = none ∧ aDrop [aGoodC5] ≠ [] ∧
      buildConferenciaCpfValor [aBadC5, aGoodC5] [] = none ∧
      (buildConferenciaCpfValor [aGoodC5] []).isSome = true) ∧
    (∀ (a : List ARow) (xs ys : List BRow) (r : BRow),
      parseBrlMoney r.valor = none →
        buildConferenciaCpfValor a (xs ++ r :: ys) =
          buildConferenciaCpfValor a (xs ++ ys)) ∧
    (∀ (rows : List CredRowIn) (r : CredRowIn),
      r ∈ dropInvalidCred rows ↔
        r ∈ rows ∧ r.filial.isSome = true ∧ r.dataEmissao.isSome = true) := by
  refine ⟨aDropL_values_erase, ?_, ?_, ⟨by decide, by decide, by decide, by decide⟩, ?_, ?_⟩
  · intro xs r b h
    have hL : aDropL (xs ++ [r]) = aDropL xs := by
      unfold aDropL
      rw [aDropFrom_append]
      have hnil : aDropFrom (0 + xs.length) [r] = [] := by
        rw [aDropFrom_cons]
        cases hc : normalizeCpf (some r.cpf) <;> simp only [hc, h] <;> rfl
      rw [hnil, List.append_nil]
    unfold buildConferenciaCpfValor
    rw [hL]
  · intro xs ys r b hparse hys
    have hL : aDropL (xs ++ r :: ys) =
        aDropFrom 0 xs ++ aDropFrom (0 + xs.length + 1) ys := by
      unfold aDropL
      rw [aDropFrom_append]
      congr 1
      rw [aDropFrom_cons]
      cases hc : normalizeCpf (some r.cpf) <;> simp only [hc, hparse]
    unfold buildConferenciaCpfValor
    cases hrl : readByLabels (aDropL (xs ++ r :: ys)) with
    | none => rfl
    | some w =>
      exfalso
      have hall : ∀ i ∈ List.range (aDropL (xs ++ r :: ys)).length,
          (aAt (aDropL (xs ++ r :: ys)) i).isSome = true := by
        apply readByLabelsAux_ne_none
        unfold readByLabels at hrl
        simp [hrl]
      have hBlen : 0 < (aDropFrom (0 + xs.length + 1) ys).length := by
        rw [show (aDropFrom (0 + xs.length + 1) ys).length =
            ((aDropFrom (0 + xs.length + 1) ys).map (fun p => p.2)).length from
          (List.length_map _ _).symm]
        rw [aDropFrom_values]
        exact List.length_pos.mpr hys
      have hAlen : (aDropFrom 0 xs).length ≤ xs.length := by
        rw [show (aDropFrom 0 xs).length =
            ((aDropFrom 0 xs).map (fun p => p.2)).length from
          (List.length_map _ _).symm]
        rw [aDropFrom_values]
        exact List.length_filterMap_le _ _
      by_cases hm : xs.length < (aDropL (xs ++ r :: ys)).length
      · have hx := hall xs.length (List.mem_range.mpr hm)
        rcases (aAt_isSome_iff _ _).mp hx with ⟨p, hp, hpl⟩
        rw [hL] at hp
        rcases List.mem_append.mp hp with hpA | hpB
        · have := aDropFrom_label_bounds xs 0 p hpA
          omega
        · have := aDropFrom_label_bounds ys (0 + xs.length + 1) p hpB
          omega
      · have hsub : Finset.range (aDropL (xs ++ r :: ys)).length ⊆
            ((aDropFrom 0 xs).map (fun p => p.1)).toFinset := by
          intro i hi
          have hilt := Finset.mem_range.mp hi
          have hx := hall i (List.mem_range.mpr hilt)
          rcases (aAt_isSome_iff _ _).mp hx with ⟨p, hp, hpl⟩
          rw [hL] at hp
          rcases List.mem_append.mp hp with hpA | hpB
          · rw [List.mem_toFinset]
            exact List.mem_map.mpr ⟨p, hpA, hpl⟩
          · have := aDropFrom_label_bounds ys (0 + xs.length + 1) p hpB
            omega
        have hcard := Finset.card_le_card hsub
        rw [Finset.card_range] at hcard
        have htf := List.toFinset_card_le ((aDropFrom 0 xs).map (fun p => p.1))
        rw [List.length_map] at htf
        have hlen : (aDropL (xs ++ r :: ys)).length =
            (aDropFrom 0 xs).length + (aDropFrom (0 + xs.length + 1) ys).length := by
          rw [hL, List.length_append]
        omega
  · intro a xs ys r h
    have hdrop : bDrop (xs ++ r :: ys) = bDrop (xs ++ ys) := by
      unfold bDrop
      rw [List.filterMap_append, List.filterMap_append, List.filterMap_cons]
      cases hn : normalizeCpf (some r.cpf) <;> simp [h, hn]
    unfold buildConferenciaCpfValor
    cases hrl : readByLabels (aDropL a) with
    | none => rfl
    | some w =>
      unfold buildItems
      rw [hdrop]
  · intro rows r
    unfold dropInvalidCred
    rw [List.mem_filter]
    constructor
    · rintro ⟨hm, hb⟩
      rcases Bool.and_eq_true_iff.mp hb with ⟨h1, h2⟩
      exact ⟨hm, h1, h2⟩
    · rintro ⟨hm, h1, h2⟩
      exact ⟨hm, Bool.and_eq_true_iff.mpr ⟨h1, h2⟩⟩

/-- Claim C8 (confirmed): `normalize_cpf` returns none or exactly 11 digits
(non-digits stripped, zero-padded on the left); an input whose digit run
exceeds 11 digits is rejected with none; and `format_cpf` of an 11-digit id
matches the pattern `###.###.###-##`. -/
theorem claim8_document_id_normalization :
    (∀ x : Option String, normalizeCpf x = none ∨
      ∃ t, normalizeCpf x = some t ∧ t.length = 11 ∧ t.data.all Char.isDigit = true) ∧
    (∀ s : String, 11 < (s.data.filter Char.isDigit).length →
      normalizeCpf (some s) = none) ∧
    (∀ t : String, t.length = 11 → t.data.all Char.isDigit = true →
      cpfPattern (formatCpf t) = true) := by
  refine ⟨?_, ?_, ?_⟩
  · intro x
    cases x with
    | none => exact Or.inl rfl
    | some s =>
      simp only [normalizeCpf]
      by_cases hd : s.data.filter Char.isDigit = []
      · rw [if_pos hd]
        exact Or.inl rfl
      · rw [if_neg hd]
        by_cases hl :
            (List.replicate (11 - (s.data.filter Char.isDigit).length) '0' ++
              s.data.filter Char.isDigit).length = 11
        · rw [if_pos hl]
          refine Or.inr ⟨_, rfl, hl, ?_⟩
          rw [List.all_append]
          refine Bool.and_eq_true_iff.mpr ⟨?_, ?_⟩
          · rw [List.all_eq_true]
            intro c hc
            rw [List.eq_of_mem_replicate hc]
            decide
          · rw [List.all_eq_true]
            intro c hc
            exact List.of_mem_filter hc
        · rw [if_neg hl]
          exact Or.inl rfl
  · intro s hgt
    simp only [normalizeCpf]
    have hd : s.data.filter Char.isDigit ≠ [] := by
      intro h
      rw [h] at hgt
      simp at hgt
    rw [if_neg hd]
    have hsub : 11 - (s.data.filter Char.isDigit).length = 0 :=
      Nat.sub_eq_zero_of_le (Nat.le_of_lt hgt)
    rw [if_neg ?_]
    simp [hsub]
    omega
  · intro t hlen hdig
    obtain ⟨l⟩ := t
    have hlen' : l.length = 11 := hlen
    have hdig' : ∀ c ∈ l, c.isDigit = true := List.all_eq_true.mp hdig
    rcases l with _ | ⟨c1, l⟩; · simp at hlen'
    rcases l with _ | ⟨c2, l⟩; · simp at hlen'
    rcases l with _ | ⟨c3, l⟩; · simp at hlen'
    rcases l with _ | ⟨c4, l⟩; · simp at hlen'
    rcases l with _ | ⟨c5, l⟩; · simp at hlen'
    rcases l with _ | ⟨c6, l⟩; · simp at hlen'
    rcases l with _ | ⟨c7, l⟩; · simp at hlen'
    rcases l with _ | ⟨c8, l⟩; · simp at hlen'
    rcases l with _ | ⟨c9, l⟩; · simp at hlen'
    rcases l with _ | ⟨c10, l⟩; · simp at hlen'
    rcases l with _ | ⟨c11, l⟩; · simp at hlen'
    rcases l with _ | ⟨c12, l⟩
    · unfold formatCpf cpfPattern
      simp only [String.length] at hlen' ⊢
      have hall : [c1, c2, c3, c4, c5, c6, c7, c8, c9, c10, c11].all Char.isDigit = true := hdig
      rw [if_neg ?_, if_pos hall]
      · simp only [List.all_eq_true] at hall
        simp [hall]
      · intro h
        simp [String.length] at h
    · simp at hlen'

/-- Characterization of the inner candidate scan: after scanning the first
`n` CREDCOM indices, either no positive score was seen (`best_j` is none and
every scannable index scored 0), or `best_j` is the first index attaining the
maximal positive score among the scannable indices scanned so far. -/
theorem runBest_spec (a : CredRec) (cg : List CredRec) (used : Finset ℕ) :
    ∀ n : ℕ,
      (∀ s, runBest a cg used n = (none, s) →
        s = 0 ∧ ∀ k, k < n → k ∉ used →
          parcelaBlocked a (cg.getD k default) = false → scoreAt a cg k = 0) ∧
      (∀ j s, runBest a cg used n = (some j, s) →
        j < n ∧ j ∉ used ∧ parcelaBlocked a (cg.getD j default) = false ∧
        scoreAt a cg j = s ∧ 0 < s ∧
        (∀ k, k < n → k ∉ used →
          parcelaBlocked a (cg.getD k default) = false → scoreAt a cg k ≤ s) ∧
        (∀ k, k < j → k ∉ used →
          parcelaBlocked a (cg.getD k default) = false → scoreAt a cg k < s)) := by
  intro n
  induction n with
  | zero =>
    constructor
    · intro s h
      have h' : ((none : Option ℕ), 0) = ((none : Option ℕ), s) := h
      injection h' with h1 h2
      exact ⟨h2.symm, fun k hk => absurd hk (Nat.not_lt_zero k)⟩
    · intro j s h
      have h' : ((none : Option ℕ), 0) = (some j, s) := h
      injection h' with h1 h2
      cases h1
  | succ n ih =>
    have hstep : runBest a cg used (n + 1) =
        scanB a cg used (runBest a cg used n) n := by
      unfold runBest
      rw [List.range_succ, List.foldl_append]
      rfl
    obtain ⟨IH1, IH2⟩ := ih
    rcases hprev : runBest a cg used n with ⟨bj, bs⟩
    rw [hprev] at hstep
    cases bj with
    | none =>
      obtain ⟨hbs0, hall⟩ := IH1 bs hprev
      subst hbs0
      by_cases hu : n ∈ used
      · have hres : runBest a cg used (n + 1) = (none, 0) := by
          rw [hstep]
          unfold scanB
          rw [if_pos hu]
        constructor
        · intro s h
          rw [hres] at h
          injection h with h1 h2
          refine ⟨h2.symm, fun k hk hku hkb => ?_⟩
          rcases Nat.lt_succ_iff_lt_or_eq.mp hk with hk' | rfl
          · exact hall k hk' hku hkb
          · exact absurd hu hku
        · intro j s h
          rw [hres] at h
          injection h with h1 h2
          cases h1
      · by_cases hblk : parcelaBlocked a (cg.getD n default) = true
        · have hres : runBest a cg used (n + 1) = (none, 0) := by
            rw [hstep]
            unfold scanB
            rw [if_neg hu, if_pos hblk]
          constructor
          · intro s h
            rw [hres] at h
            injection h with h1 h2
            refine ⟨h2.symm, fun k hk hku hkb => ?_⟩
            rcases Nat.lt_succ_iff_lt_or_eq.mp hk with hk' | rfl
            · exact hall k hk' hku hkb
            · rw [hkb] at hblk
              cases hblk
          · intro j s h
            rw [hres] at h
            injection h with h1 h2
            cases h1
        · have hblk' : parcelaBlocked a (cg.getD n default) = false :=
            Bool.eq_false_iff.mpr hblk
          by_cases hsc : 0 < scoreAt a cg n
          · have hres : runBest a cg used (n + 1) = (some n, scoreAt a cg n) := by
              rw [hstep]
              unfold scanB
              rw [if_neg hu, if_neg hblk, if_pos hsc]
            constructor
            · intro s h
              rw [hres] at h
              injection h with h1 h2
              cases h1
            · intro j s h
              rw [hres] at h
              injection h with h1 h2
              cases h1
              refine ⟨Nat.lt_succ_self n, hu, hblk', h2, h2 ▸ hsc, ?_, ?_⟩
              · intro k hk hku hkb
                rcases Nat.lt_succ_iff_lt_or_eq.mp hk with hk' | rfl
                · rw [← h2]
                  exact Nat.le_of_lt (Nat.lt_of_le_of_lt
                    (Nat.le_of_eq (hall k hk' hku hkb)) hsc)
                · exact Nat.le_of_eq h2
              · intro k hk hku hkb
                rw [← h2, hall k hk hku hkb]
                exact hsc
          · have h0 : scoreAt a cg n = 0 := Nat.eq_zero_of_not_pos hsc
            have hres : runBest a cg used (n + 1) = (none, 0) := by
              rw [hstep]
              unfold scanB
              rw [if_neg hu, if_neg hblk, if_neg hsc]
            constructor
            · intro s h
              rw [hres] at h
              injection h with h1 h2
              refine ⟨h2.symm, fun k hk hku hkb => ?_⟩
              rcases Nat.lt_succ_iff_lt_or_eq.mp hk with hk' | rfl
              · exact hall k hk' hku hkb
              · exact h0
            · intro j s h
              rw [hres] at h
              injection h with h1 h2
              cases h1
    | some j' =>
      obtain ⟨hjn, hju, hjb, hjs, hspos, hmax, hfirst⟩ := IH2 j' bs hprev
      have keep : runBest a cg used (n + 1) = (some j', bs) →
          (∀ s, runBest a cg used (n + 1) = (none, s) →
            s = 0 ∧ ∀ k, k < n + 1 → k ∉ used →
              parcelaBlocked a (cg.getD k default) = false → scoreAt a cg k = 0) := by
        intro hres s h
        rw [hres] at h
        injection h with h1 h2
        cases h1
      by_cases hu : n ∈ used
      · have hres : runBest a cg used (n + 1) = (some j', bs) := by
          rw [hstep]
          unfold scanB
          rw [if_pos hu]
        refine ⟨keep hres, ?_⟩
        intro j s h
        rw [hres] at h
        injection h with h1 h2
        injection h1 with h1
        subst h1
        subst h2
        refine ⟨Nat.lt_succ_of_lt hjn, hju, hjb, hjs, hspos, ?_, hfirst⟩
        intro k hk hku hkb
        rcases Nat.lt_succ_iff_lt_or_eq.mp hk with hk' | rfl
        · exact hmax k hk' hku hkb
        · exact absurd hu hku
      · by_cases hblk : parcelaBlocked a (cg.getD n default) = true
        · have hres : runBest a cg used (n + 1) = (some j', bs) := by
            rw [hstep]
            unfold scanB
            rw [if_neg hu, if_pos hblk]
          refine ⟨keep hres, ?_⟩
          intro j s h
          rw [hres] at h
          injection h with h1 h2
          injection h1 with h1
          subst h1
          subst h2
          refine ⟨Nat.lt_succ_of_lt hjn, hju, hjb, hjs, hspos, ?_, hfirst⟩
          intro k hk hku hkb
          rcases Nat.lt_succ_iff_lt_or_eq.mp hk with hk' | rfl
          · exact hmax k hk' hku hkb
          · rw [hkb] at hblk
            cases hblk
        · have hblk' : parcelaBlocked a (cg.getD n default) = false :=
            Bool.eq_false_iff.mpr hblk
          by_cases hlt : bs < scoreAt a cg n
          · have hres : runBest a cg used (n + 1) = (some n, scoreAt a cg n) := by
              rw [hstep]
              unfold scanB
              rw [if_neg hu, if_neg hblk, if_pos hlt]
            constructor
            · intro s h
              rw [hres] at h
              injection h with h1 h2
              cases h1
            · intro j s h
              rw [hres] at h
              injection h with h1 h2
              injection h1 with h1
              subst h1
              subst h2
              refine ⟨Nat.lt_succ_self n, hu, hblk', rfl,
                Nat.lt_of_le_of_lt (Nat.zero_le bs) hlt, ?_, ?_⟩
              · intro k hk hku hkb
                rcases Nat.lt_succ_iff_lt_or_eq.mp hk with hk' | rfl
                · exact Nat.le_of_lt (Nat.lt_of_le_of_lt (hmax k hk' hku hkb) hlt)
                · exact Nat.le_refl _
              · intro k hk hku hkb
                exact Nat.lt_of_le_of_lt (hmax k hk hku hkb) hlt
          · have hres : runBest a cg used (n + 1) = (some j', bs) := by
              rw [hstep]
              unfold scanB
              rw [if_neg hu, if_neg hblk, if_neg hlt]
            refine ⟨keep hres, ?_⟩
            intro j s h
            rw [hres] at h
            injection h with h1 h2
            injection h1 with h1
            subst h1
            subst h2
            refine ⟨Nat.lt_succ_of_lt hjn, hju, hjb, hjs, hspos, ?_, hfirst⟩
            intro k hk hku hkb
            rcases Nat.lt_succ_iff_lt_or_eq.mp hk with hk' | rfl
            · exact hmax k hk' hku hkb
            · exact Nat.le_of_not_lt hlt

/-- A selected candidate is in range, unused and not installment-blocked. -/
theorem selectCandidate_bounds {a : CredRec} {cg : List CredRec}
    {used : Finset ℕ} {j : ℕ} (h : selectCandidate a cg used = some j) :
    j < cg.length ∧ j ∉ used ∧ parcelaBlocked a (cg.getD j default) = false := by
  unfold selectCandidate findBest at h
  rcases hf : runBest a cg used cg.length with ⟨bj, bs⟩
  cases bj with
  | none => simp [hf] at h
  | some j' =>
    simp only [hf] at h
    by_cases h2 : 2 ≤ bs
    · rw [if_pos h2] at h
      injection h with h1
      subst h1
      obtain ⟨ha, hb, hc, -⟩ := (runBest_spec a cg used cg.length).2 j' bs hf
      exact ⟨ha, hb, hc⟩
    · rw [if_neg h2] at h
      cases h

/-- Claim C3 (confirmed): the greedy name-token matching policy — a candidate
is selected exactly when it is eligible (in range, unused, and not blocked by
a differing installment number on both sides), its token-intersection score
is at least 2, it strictly beats every earlier eligible candidate (so the
first seen wins ties), and no eligible candidate anywhere scores higher;
when no candidate is accepted the TRIER record yields an `onlyA` result. -/
theorem claim3_greedy_matching_policy :
    ∀ (a : CredRec) (cg : List CredRec) (used : Finset ℕ),
      (∀ j, selectCandidate a cg used = some j ↔
        (Eligible a cg used j ∧ 2 ≤ scoreAt a cg j ∧
          (∀ k, k < j → Eligible a cg used k → scoreAt a cg k < scoreAt a cg j) ∧
          (∀ k, Eligible a cg used k → scoreAt a cg k ≤ scoreAt a cg j))) ∧
      (∀ i rest, selectCandidate a cg used = none →
        (matchTrier cg ((i, a) :: rest) used).1 =
          MatchResult.onlyA i :: (matchTrier cg rest used).1) := by
  intro a cg used
  constructor
  · intro j
    constructor
    · intro h
      obtain ⟨hjlen, hju, hjb⟩ := selectCandidate_bounds h
      unfold selectCandidate findBest at h
      rcases hf : runBest a cg used cg.length with ⟨bj, bs⟩
      cases bj with
      | none => simp [hf] at h
      | some j' =>
        simp only [hf] at h
        by_cases h2 : 2 ≤ bs
        · rw [if_pos h2] at h
          injection h with h1
          subst h1
          obtain ⟨-, -, -, hjs, -, hmax, hfirst⟩ :=
            (runBest_spec a cg used cg.length).2 j' bs hf
          refine ⟨⟨hjlen, hju, hjb⟩, hjs ▸ h2, ?_, ?_⟩
          · intro k hk hek
            rw [hjs]
            exact hfirst k hk hek.2.1 hek.2.2
          · intro k hek
            rw [hjs]
            exact hmax k hek.1 hek.2.1 hek.2.2
        · rw [if_neg h2] at h
          cases h
    · rintro ⟨⟨hjlen, hju, hjb⟩, h2, hfirst, hmax⟩
      unfold selectCandidate findBest
      rcases hf : runBest a cg used cg.length with ⟨bj, bs⟩
      cases bj with
      | none =>
        obtain ⟨-, hall⟩ := (runBest_spec a cg used cg.length).1 bs hf
        have := hall j hjlen hju hjb
        omega
      | some j' =>
        obtain ⟨hjn', hju', hjb', hjs', hspos', hmax', hfirst'⟩ :=
          (runBest_spec a cg used cg.length).2 j' bs hf
        have hsj_le : scoreAt a cg j ≤ bs := hmax' j hjlen hju hjb
        have hbs_le : bs ≤ scoreAt a cg j := by
          rw [← hjs']
          exact hmax j' ⟨hjn', hju', hjb'⟩
        have hsj : scoreAt a cg j = bs := Nat.le_antisymm hsj_le hbs_le
        have hjj : j = j' := by
          by_contra hne
          rcases Nat.lt_or_ge j j' with hlt | hge
          · have := hfirst' j hlt hju hjb
            omega
          · have hlt' : j' < j := Nat.lt_of_le_of_ne hge (fun he => hne he.symm)
            have := hfirst j' hlt' ⟨hjn', hju', hjb'⟩
            omega
        subst hjj
        simp only [hf]
        rw [if_pos (by omega : 2 ≤ bs)]
  · intro i rest h
    simp only [matchTrier, h]

/-- Does a result concern TRIER line `i`? -/
def mentionsA (i : ℕ) : MatchResult → Bool
  | .matched i' _ => i' == i
  | .onlyA i' => i' == i
  | .onlyB _ => false

/-- Does a result concern CREDCOM line `j`? -/
def mentionsB (j : ℕ) : MatchResult → Bool
  | .matched _ j' => j' == j
  | .onlyB j' => j' == j
  | .onlyA _ => false

/-- Counting a single index in `range n` under an extra side condition. -/
theorem countP_range_beq_and (j n : ℕ) (q : ℕ → Bool) :
    (List.range n).countP (fun x => (x == j) && q x) =
      if j < n ∧ q j = true then 1 else 0 := by
  induction n with
  | zero =>
    rw [List.range_zero, List.countP_nil, if_neg (fun h => Nat.not_lt_zero j h.1)]
  | succ n ih =>
    rw [List.range_succ, List.countP_append, ih, List.countP_cons, List.countP_nil]
    by_cases hj : j < n
    · have hne : (n == j) = false := by
        rw [beq_eq_false_iff_ne]
        omega
      have hlt : j < n + 1 := by omega
      by_cases hq : q j = true
      · simp [hj, hq, hne, hlt]
      · simp [hj, hq, hne]
    · by_cases hjeq : j = n
      · subst hjeq
        by_cases hq : q j = true
        · simp [hj, hq, Nat.lt_succ_self]
        · simp [hj, hq]
      · have hne : (n == j) = false := by
          rw [beq_eq_false_iff_ne]
          omega
        have hge : ¬ j < n + 1 := by omega
        simp [hj, hne, hge]

/-- The `matchTrier` loop emits, per TRIER entry, exactly one result carrying
that entry's index; it marks exactly the newly matched CREDCOM indices used,
never un-marks one, and emits exactly one result mentioning each CREDCOM
index it newly marks. -/
theorem matchTrier_spec (cg : List CredRec) :
    ∀ (ps : List (ℕ × CredRec)) (used : Finset ℕ),
      (∀ i, (matchTrier cg ps used).1.countP (mentionsA i) =
        ps.countP (fun p => p.1 == i)) ∧
      (∀ j, (matchTrier cg ps used).1.countP (mentionsB j) =
        if j ∈ (matchTrier cg ps used).2 ∧ j ∉ used then 1 else 0) ∧
      used ⊆ (matchTrier cg ps used).2 := by
  intro ps
  induction ps with
  | nil =>
    intro used
    refine ⟨fun i => rfl, fun j => ?_, Finset.Subset.refl used⟩
    have hcontra : ¬ (j ∈ used ∧ j ∉ used) := fun h => h.2 h.1
    simp [matchTrier, hcontra]
  | cons p rest ih =>
    intro used
    rcases p with ⟨i0, a⟩
    cases hsel : selectCandidate a cg used with
    | some j0 =>
      obtain ⟨hj0len, hj0u, -⟩ := selectCandidate_bounds hsel
      have hstep1 : (matchTrier cg ((i0, a) :: rest) used).1 =
          MatchResult.matched i0 j0 :: (matchTrier cg rest (insert j0 used)).1 := by
        simp only [matchTrier, hsel]
      have hstep2 : (matchTrier cg ((i0, a) :: rest) used).2 =
          (matchTrier cg rest (insert j0 used)).2 := by
        simp only [matchTrier, hsel]
      obtain ⟨ihA, ihB, ihSub⟩ := ih (insert j0 used)
      refine ⟨?_, ?_, ?_⟩
      · intro i
        rw [hstep1, List.countP_cons, ihA i, List.countP_cons]
        simp [mentionsA]
      · intro j
        rw [hstep1, List.countP_cons, ihB j, hstep2]
        by_cases hjj : j = j0
        · subst hjj
          have hmem : j ∈ (matchTrier cg rest (insert j used)).2 :=
            ihSub (Finset.mem_insert_self j used)
          have hnotin : ¬ (j ∈ (matchTrier cg rest (insert j used)).2 ∧
              j ∉ insert j used) := by
            rintro ⟨-, hno⟩
            exact hno (Finset.mem_insert_self j used)
          have hment : mentionsB j (MatchResult.matched i0 j) = true := by
            simp [mentionsB]
          rw [if_neg hnotin, hment, if_pos rfl, if_pos (And.intro hmem hj0u)]
        · have hne : j ∈ insert j0 used ↔ j ∈ used := by
            rw [Finset.mem_insert]
            constructor
            · rintro (rfl | hm)
              · exact absurd rfl hjj
              · exact hm
            · exact Or.inr
          have hnotiff : (j ∉ insert j0 used) = (j ∉ used) :=
            propext (not_congr hne)
          have hment : mentionsB j (MatchResult.matched i0 j0) = false := by
            simp only [mentionsB]
            rw [beq_eq_false_iff_ne]
            exact fun he => hjj he.symm
          rw [hment]
          simp only [hnotiff]
          simp
      · rw [hstep2]
        exact Finset.Subset.trans (Finset.subset_insert j0 used) ihSub
    | none =>
      have hstep1 : (matchTrier cg ((i0, a) :: rest) used).1 =
          MatchResult.onlyA i0 :: (matchTrier cg rest used).1 := by
        simp only [matchTrier, hsel]
      have hstep2 : (matchTrier cg ((i0, a) :: rest) used).2 =
          (matchTrier cg rest used).2 := by
        simp only [matchTrier, hsel]
      obtain ⟨ihA, ihB, ihSub⟩ := ih used
      refine ⟨?_, ?_, ?_⟩
      · intro i
        rw [hstep1, List.countP_cons, ihA i, List.countP_cons]
        simp [mentionsA]
      · intro j
        rw [hstep1, List.countP_cons, ihB j, hstep2]
        simp [mentionsB]
      · rw [hstep2]
        exact ihSub

/-- Claim C4 (confirmed): per partition, every TRIER index appears in exactly
one result (one `matched` or one `onlyA`), and every CREDCOM index appears in
exactly one result (one `matched` when it was consumed — so it is never
paired twice — or one `onlyB` leftover otherwise). -/
theorem claim4_matching_partition :
    ∀ (tg cg : List CredRec),
      (∀ i, i < tg.length → (matchPartition tg cg).countP (mentionsA i) = 1) ∧
      (∀ j, j < cg.length → (matchPartition tg cg).countP (mentionsB j) = 1) := by
  intro tg cg
  obtain ⟨hA, hB, -⟩ := matchTrier_spec cg tg.enum ∅
  constructor
  · intro i hi
    simp only [matchPartition]
    rw [List.countP_append, hA i, List.countP_map]
    have hzero : List.countP (mentionsA i ∘ MatchResult.onlyB)
        ((List.range cg.length).filter
          (fun j => decide (j ∉ (matchTrier cg tg.enum ∅).2))) = 0 := by
      rw [List.countP_eq_zero]
      intro x hx
      simp [mentionsA, Function.comp]
    rw [hzero]
    have h1 : tg.enum.countP (fun p => p.1 == i) =
        (tg.enum.map Prod.fst).countP (fun x => x == i) := by
      rw [List.countP_map]
      rfl
    rw [h1, List.enum_map_fst]
    have hf : (fun x => (x == i) && (fun (_ : ℕ) => true) x) = (fun x => x == i) := by
      funext x
      simp
    rw [← hf, countP_range_beq_and]
    simp [hi]
  · intro j hj
    simp only [matchPartition]
    rw [List.countP_append, hB j, List.countP_map, List.countP_filter]
    have hfun : (fun a => (mentionsB j ∘ MatchResult.onlyB) a &&
        decide (a ∉ (matchTrier cg tg.enum ∅).2)) =
        (fun a => (a == j) && decide (a ∉ (matchTrier cg tg.enum ∅).2)) := rfl
    rw [hfun, countP_range_beq_and]
    by_cases hm : j ∈ (matchTrier cg tg.enum ∅).2
    · have hcond : ¬ (j < cg.length ∧
          decide (j ∉ (matchTrier cg tg.enum ∅).2) = true) := by
        rintro ⟨-, hq⟩
        rw [decide_eq_true_eq] at hq
        exact hq hm
      rw [if_pos (And.intro hm (Finset.not_mem_empty j)), if_neg hcond]
    · rw [if_neg (fun h => hm h.1)]
      rw [if_pos (And.intro hj (decide_eq_true_eq.mpr hm))]

/-! ## Round-trip infrastructure (claim C7) -/

/-- The digit value of the rendered digit character. -/
theorem charVal_digitChar10 (d : ℕ) (h : d < 10) : charVal (digitChar10 d) = d := by
  interval_cases d <;> rfl

/-- The rendered digit character is a digit. -/
theorem isDigit_digitChar10 (d : ℕ) (h : d < 10) : (digitChar10 d).isDigit = true := by
  interval_cases d <;> decide

/-- A digit character is none of the structural characters of the money
format, and is not whitespace. -/
theorem digit_ne_special (c : Char) (h : c.isDigit = true) :
    c ≠ '+' ∧ c ≠ '-' ∧ c ≠ '.' ∧ c ≠ ',' ∧ c ≠ 'e' ∧ c ≠ 'E' ∧ c ≠ 'R' ∧ c ≠ '$' ∧
      isPySpace c = false := by
  refine ⟨?_, ?_, ?_, ?_, ?_, ?_, ?_, ?_, ?_⟩
  · exact fun he => absurd (he ▸ h) (by decide)
  · exact fun he => absurd (he ▸ h) (by decide)
  · exact fun he => absurd (he ▸ h) (by decide)
  · exact fun he => absurd (he ▸ h) (by decide)
  · exact fun he => absurd (he ▸ h) (by decide)
  · exact fun he => absurd (he ▸ h) (by decide)
  · exact fun he => absurd (he ▸ h) (by decide)
  · exact fun he => absurd (he ▸ h) (by decide)
  · unfold isPySpace
    apply decide_eq_false
    rintro (rfl | rfl | rfl | rfl | rfl | rfl) <;> exact absurd h (by decide)

/-- Every digit produced by `decLE` is below 10. -/
theorem decLE_lt10 : ∀ (f n : ℕ), ∀ d ∈ decLE f n, d < 10 := by
  intro f
  induction f with
  | zero =>
    intro n d hd
    cases n <;> simp [decLE] at hd
  | succ f ih =>
    intro n d hd
    cases n with
    | zero => simp [decLE] at hd
    | succ m =>
      simp only [decLE] at hd
      rcases List.mem_cons.mp hd with rfl | hd'
      · exact Nat.mod_lt _ (by omega)
      · exact ih _ d hd'

/-- `decLE` with enough fuel renders the digits of its input. -/
theorem ofDigitsLE_decLE : ∀ (f n : ℕ), n ≤ f → ofDigitsLE (decLE f n) = n := by
  intro f
  induction f with
  | zero =>
    intro n h
    have : n = 0 := by omega
    subst this
    rfl
  | succ f ih =>
    intro n h
    cases n with
    | zero => rfl
    | succ m =>
      show (m + 1) % 10 + 10 * ofDigitsLE (decLE f ((m + 1) / 10)) = m + 1
      have hlt : (m + 1) / 10 < m + 1 := Nat.div_lt_self (Nat.succ_pos m) (by omega)
      rw [ih _ (by omega)]
      omega

/-- Folding one more digit character onto a decimal reading. -/
theorem valDigits_append_singleton (xs : List Char) (c : Char) :
    valDigits (xs ++ [c]) = 10 * valDigits xs + charVal c := by
  unfold valDigits
  rw [List.foldl_append]
  rfl

/-- Reading back the rendered digit list gives the little-endian value. -/
theorem valDigits_rev_map : ∀ (ds : List ℕ), (∀ d ∈ ds, d < 10) →
    valDigits ((ds.map digitChar10).reverse) = ofDigitsLE ds := by
  intro ds
  induction ds with
  | nil => intro h; rfl
  | cons d rest ih =>
    intro h
    rw [List.map_cons, List.reverse_cons, valDigits_append_singleton,
      ih (fun x hx => h x (List.mem_cons_of_mem d hx)),
      charVal_digitChar10 d (h d (List.mem_cons_self d rest))]
    show 10 * ofDigitsLE rest + d = d + 10 * ofDigitsLE rest
    omega

/-- Parsing the decimal rendering of `n` gives back `n`. -/
theorem valDigits_natDecimal (n : ℕ) : valDigits (natDecimal n) = n := by
  by_cases h : n = 0
  · subst h
    rfl
  · rw [natDecimal, if_neg h, valDigits_rev_map _ (decLE_lt10 n n),
      ofDigitsLE_decLE n n (Nat.le_refl n)]

/-- Every character of the decimal rendering is a digit. -/
theorem natDecimal_all_digit (n : ℕ) : ∀ c ∈ natDecimal n, c.isDigit = true := by
  intro c hc
  by_cases h : n = 0
  · subst h
    rcases List.mem_singleton.mp hc with rfl
    decide
  · rw [natDecimal, if_neg h] at hc
    rw [List.mem_reverse] at hc
    obtain ⟨d, hd, rfl⟩ := List.mem_map.mp hc
    exact isDigit_digitChar10 d (decLE_lt10 n n d hd)

/-- The decimal rendering is never empty. -/
theorem natDecimal_ne_nil (n : ℕ) : natDecimal n ≠ [] := by
  by_cases h : n = 0
  · subst h
    simp [natDecimal]
  · rw [natDecimal, if_neg h]
    cases n with
    | zero => exact absurd rfl h
    | succ m => simp [decLE]

/-- Filtering the thousands separators out of the grouped reversed string
recovers the plain reversed string. -/
theorem group3rev_filter : ∀ (n : ℕ) (l : List Char), l.length ≤ n →
    (group3rev l).filter (fun c => !(c == '.')) = l.filter (fun c => !(c == '.')) := by
  intro n
  induction n with
  | zero =>
    intro l h
    have : l = [] := List.eq_nil_of_length_eq_zero (by omega)
    subst this
    rfl
  | succ n ih =>
    intro l h
    rcases l with _ | ⟨a, _ | ⟨b, _ | ⟨c, _ | ⟨d, rest⟩⟩⟩⟩
    · rfl
    · rfl
    · rfl
    · rfl
    · show (a :: b :: c :: '.' :: group3rev (d :: rest)).filter (fun x => !(x == '.')) =
        (a :: b :: c :: d :: rest).filter (fun x => !(x == '.'))
      have hlen : (d :: rest).length ≤ n := by
        simp only [List.length_cons] at h ⊢
        omega
      simp only [List.filter_cons]
      rw [ih (d :: rest) hlen]
      simp [List.filter_cons]

/-- A character of the grouped string is a character of the string or a dot. -/
theorem group3rev_mem {c : Char} {l : List Char} (h : c ∈ group3rev l) :
    c ∈ l ∨ c = '.' := by
  by_cases hc : c = '.'
  · exact Or.inr hc
  · left
    have hb : (!(c == '.')) = true := by simp [hc]
    have hmem : c ∈ (group3rev l).filter (fun x => !(x == '.')) :=
      List.mem_filter.mpr ⟨h, hb⟩
    rw [group3rev_filter l.length l (Nat.le_refl _)] at hmem
    exact (List.mem_filter.mp hmem).1

/-- Filtering the dots out of the thousands-grouped string gives the string. -/
theorem group3_filter (l : List Char) :
    (group3 l).filter (fun c => !(c == '.')) = l.filter (fun c => !(c == '.')) := by
  unfold group3
  rw [List.filter_reverse, group3rev_filter l.reverse.length l.reverse (Nat.le_refl _),
    ← List.filter_reverse, List.reverse_reverse]

/-- A character of the thousands-grouped string. -/
theorem group3_mem {c : Char} {l : List Char} (h : c ∈ group3 l) : c ∈ l ∨ c = '.' := by
  unfold group3 at h
  rw [List.mem_reverse] at h
  rcases group3rev_mem h with h' | h'
  · rw [List.mem_reverse] at h'
    exact Or.inl h'
  · exact Or.inr h'

/-- Single-character deleting replace is a filter. -/
theorem pyReplaceAux_single_del (p : Char) : ∀ (fuel : ℕ) (l : List Char),
    l.length ≤ fuel → pyReplaceAux p [] [] fuel l = l.filter (fun c => !(c == p)) := by
  intro fuel
  induction fuel with
  | zero =>
    intro l h
    have : l = [] := List.eq_nil_of_length_eq_zero (by omega)
    subst this
    rfl
  | succ f ih =>
    intro l h
    cases l with
    | nil => rfl
    | cons c cs =>
      simp only [pyReplaceAux, List.isPrefixOf, and_true, List.drop_zero, List.length_nil,
        List.filter_cons]
      by_cases hc : c = p
      · rw [if_pos hc, ih cs (by simp at h; omega)]
        have : (c == p) = true := beq_iff_eq.mpr hc
        simp [this]
      · rw [if_neg hc, ih cs (by simp at h; omega)]
        have : (c == p) = false := beq_eq_false_iff_ne.mpr hc
        simp [this]

/-- Single-character substituting replace is a map. -/
theorem pyReplaceAux_single_map (p b : Char) : ∀ (fuel : ℕ) (l : List Char),
    l.length ≤ fuel →
      pyReplaceAux p [] [b] fuel l = l.map (fun c => if c = p then b else c) := by
  intro fuel
  induction fuel with
  | zero =>
    intro l h
    have : l = [] := List.eq_nil_of_length_eq_zero (by omega)
    subst this
    rfl
  | succ f ih =>
    intro l h
    cases l with
    | nil => rfl
    | cons c cs =>
      simp only [pyReplaceAux, List.isPrefixOf, and_true, List.drop_zero, List.length_nil,
        List.map_cons]
      by_cases hc : c = p
      · rw [if_pos hc, ih cs (by simp at h; omega), if_pos hc]
        rfl
      · rw [if_neg hc, ih cs (by simp at h; omega), if_neg hc]

/-- Replacement leaves a string without the pattern head unchanged. -/
theorem pyReplaceAux_no_match (p : Char) (ps rep : List Char) :
    ∀ (fuel : ℕ) (l : List Char), p ∉ l → pyReplaceAux p ps rep fuel l = l := by
  intro fuel
  induction fuel with
  | zero => intro l _; rfl
  | succ f ih =>
    intro l hp
    cases l with
    | nil => rfl
    | cons c cs =>
      have hc : ¬ (c = p ∧ List.isPrefixOf ps cs) := by
        rintro ⟨rfl, -⟩
        exact hp (List.mem_cons_self c cs)
      simp only [pyReplaceAux, if_neg hc]
      rw [ih cs (fun hm => hp (List.mem_cons_of_mem c hm))]

/-- `str.replace(c, "")` deletes every occurrence of the character. -/
theorem pyReplace_single_del (p : Char) (l : List Char) :
    pyReplace [p] [] l = l.filter (fun c => !(c == p)) :=
  pyReplaceAux_single_del p l.length l (Nat.le_refl _)

/-- `str.replace(c, d)` maps the character to its substitute. -/
theorem pyReplace_single_map (p b : Char) (l : List Char) :
    pyReplace [p] [b] l = l.map (fun c => if c = p then b else c) :=
  pyReplaceAux_single_map p b l.length l (Nat.le_refl _)

/-- Dropping the leading `R$` of the formatted amount. -/
theorem pyReplace_rs (rest : List Char) (h : 'R' ∉ rest) :
    pyReplace ['R', '$'] [] ('R' :: '$' :: rest) = rest := by
  show pyReplaceAux 'R' ['$'] [] ('R' :: '$' :: rest).length ('R' :: '$' :: rest) = rest
  simp only [List.length_cons]
  simp only [pyReplaceAux]
  have hcond : True ∧ List.isPrefixOf ['$'] ('$' :: rest) = true :=
    ⟨trivial, by simp [List.isPrefixOf]⟩
  rw [if_pos hcond]
  simp only [List.length_cons, List.length_nil, List.drop_succ_cons, List.drop_zero,
    List.nil_append]
  exact pyReplaceAux_no_match 'R' ['$'] [] (rest.length + 1) rest h

/-- Dropping the leading whitespace of a list none of whose elements is
whitespace leaves it unchanged. -/
theorem dropWhile_all_false (p : Char → Bool) :
    ∀ (l : List Char), (∀ c ∈ l, p c = false) → l.dropWhile p = l := by
  intro l h
  cases l with
  | nil => rfl
  | cons c cs =>
    rw [List.dropWhile_cons, if_neg]
    rw [h c (List.mem_cons_self c cs)]
    simp

/-- Stripping a list without whitespace leaves it unchanged. -/
theorem trimChars_of_all (l : List Char) (h : ∀ c ∈ l, isPySpace c = false) :
    trimChars l = l := by
  unfold trimChars
  rw [dropWhile_all_false isPySpace l h,
    dropWhile_all_false isPySpace l.reverse (fun c hc => h c (List.mem_reverse.mp hc)),
    List.reverse_reverse]

/-- Stripping a list whose first and last characters are not whitespace
leaves it unchanged. -/
theorem trimChars_of_ends (l : List Char)
    (h1 : ∀ c, l.head? = some c → isPySpace c = false)
    (h2 : ∀ c, l.getLast? = some c → isPySpace c = false) : trimChars l = l := by
  unfold trimChars
  have hd : l.dropWhile isPySpace = l := by
    cases l with
    | nil => rfl
    | cons c cs =>
      rw [List.dropWhile_cons, if_neg]
      rw [h1 c rfl]
      simp
  rw [hd]
  have hd2 : l.reverse.dropWhile isPySpace = l.reverse := by
    cases hr : l.reverse with
    | nil => rfl
    | cons c cs =>
      have hlast : l.getLast? = some c := by
        rw [← List.head?_reverse, hr]
        rfl
      rw [List.dropWhile_cons, if_neg]
      rw [h2 c hlast]
      simp
  rw [hd2, List.reverse_reverse]

/-- `splitOnChar` never returns an empty list of pieces. -/
theorem splitOnChar_ne_nil (c : Char) : ∀ l, splitOnChar c l ≠ [] := by
  intro l
  cases l with
  | nil => simp [splitOnChar]
  | cons x xs =>
    simp only [splitOnChar]
    cases h : splitOnChar c xs with
    | nil => simp
    | cons y ys => by_cases hx : x = c <;> simp [hx]

/-- Splitting a list without the separator gives one piece. -/
theorem splitOnChar_not_mem (c : Char) :
    ∀ (l : List Char), c ∉ l → splitOnChar c l = [l] := by
  intro l
  induction l with
  | nil => intro h; rfl
  | cons x xs ih =>
    intro h
    have hx : x ≠ c := fun he => h (he ▸ List.mem_cons_self x xs)
    simp only [splitOnChar, ih (fun hm => h (List.mem_cons_of_mem x hm))]
    rw [if_neg hx]

/-- Splitting at the unique separator position. -/
theorem splitOnChar_append (c : Char) :
    ∀ (xs ys : List Char), c ∉ xs →
      splitOnChar c (xs ++ c :: ys) = xs :: splitOnChar c ys := by
  intro xs
  induction xs with
  | nil =>
    intro ys _
    simp only [List.nil_append, splitOnChar]
    cases h' : splitOnChar c ys with
    | nil => exact absurd h' (splitOnChar_ne_nil c ys)
    | cons z zs => simp
  | cons x xs ih =>
    intro ys h
    have hx : x ≠ c := fun he => h (he ▸ List.mem_cons_self x xs)
    have ih' := ih ys (fun hm => h (List.mem_cons_of_mem x hm))
    show splitOnChar c (x :: (xs ++ c :: ys)) = (x :: xs) :: splitOnChar c ys
    simp only [splitOnChar, ih']
    rw [if_neg hx]

/-- A list without `e`/`E` has no exponent part. -/
theorem splitEOnce_no_e : ∀ (l : List Char), 'e' ∉ l → 'E' ∉ l →
    splitEOnce l = (l, none) := by
  intro l
  induction l with
  | nil => intro h1 h2; rfl
  | cons x xs ih =>
    intro h1 h2
    have hx : ¬ (x = 'e' ∨ x = 'E') := by
      rintro (rfl | rfl)
      · exact h1 (List.mem_cons_self _ xs)
      · exact h2 (List.mem_cons_self _ xs)
    simp only [splitEOnce, if_neg hx,
      ih (fun hm => h1 (List.mem_cons_of_mem x hm))
        (fun hm => h2 (List.mem_cons_of_mem x hm))]

/-- Character classification of the formatted amount body. -/
theorem formatCents_chars (n : ℕ) :
    ∀ c ∈ formatCents n, c.isDigit = true ∨ c = '.' ∨ c = ',' := by
  intro c hc
  unfold formatCents at hc
  rcases List.mem_append.mp hc with h | h
  · rcases group3_mem h with h' | h'
    · exact Or.inl (natDecimal_all_digit _ c h')
    · exact Or.inr (Or.inl h')
  · rcases List.mem_cons.mp h with rfl | h'
    · exact Or.inr (Or.inr rfl)
    · have hd1 : n % 100 / 10 < 10 := by
        have h100 : n % 100 < 100 := Nat.mod_lt _ (by omega)
        omega
      have hd0 : n % 100 % 10 < 10 := Nat.mod_lt _ (by omega)
      rcases List.mem_cons.mp h' with rfl | h''
      · exact Or.inl (isDigit_digitChar10 _ hd1)
      · rcases List.mem_singleton.mp h'' with rfl
        exact Or.inl (isDigit_digitChar10 _ hd0)

/-- `float()` of a non-empty digit run, a dot and a digit run. -/
theorem pyFloat_canonical (X F : List Char) (hX : X ≠ [])
    (hXd : ∀ c ∈ X, c.isDigit = true) (hFd : ∀ c ∈ F, c.isDigit = true) :
    pyFloat (X ++ '.' :: F) =
      some ((valDigits X : ℚ) + (valDigits F : ℚ) / (10 : ℚ) ^ F.length) := by
  obtain ⟨x, xs, rfl⟩ : ∃ x xs, X = x :: xs := by
    cases X with
    | nil => exact absurd rfl hX
    | cons x xs => exact ⟨x, xs, rfl⟩
  have hall : ∀ c ∈ (x :: xs) ++ '.' :: F, isPySpace c = false := by
    intro c hc
    rcases List.mem_append.mp hc with h | h
    · exact (digit_ne_special c (hXd c h)).2.2.2.2.2.2.2.2
    · rcases List.mem_cons.mp h with rfl | h'
      · decide
      · exact (digit_ne_special c (hFd c h')).2.2.2.2.2.2.2.2
  have hxd : x.isDigit = true := hXd x (List.mem_cons_self x xs)
  obtain ⟨hxp, hxm, -, -, -, -, -, -, -⟩ := digit_ne_special x hxd
  have hnoe : 'e' ∉ (x :: xs) ++ '.' :: F := by
    intro hm
    rcases List.mem_append.mp hm with h | h
    · exact (digit_ne_special _ (hXd _ h)).2.2.2.2.1 rfl
    · rcases List.mem_cons.mp h with he | h'
      · cases he
      · exact (digit_ne_special _ (hFd _ h')).2.2.2.2.1 rfl
  have hnoE : 'E' ∉ (x :: xs) ++ '.' :: F := by
    intro hm
    rcases List.mem_append.mp hm with h | h
    · exact (digit_ne_special _ (hXd _ h)).2.2.2.2.2.1 rfl
    · rcases List.mem_cons.mp h with he | h'
      · cases he
      · exact (digit_ne_special _ (hFd _ h')).2.2.2.2.2.1 rfl
  have hdotX : '.' ∉ x :: xs := by
    intro hm
    exact (digit_ne_special _ (hXd _ hm)).2.2.1 rfl
  have hdotF : '.' ∉ F := by
    intro hm
    exact (digit_ne_special _ (hFd _ hm)).2.2.1 rfl
  unfold pyFloat
  rw [trimChars_of_all _ hall]
  simp only [List.cons_append, if_neg hxp, if_neg hxm]
  rw [splitEOnce_no_e _ (by simpa using hnoe) (by simpa using hnoE)]
  simp only []
  unfold pyFloatMag
  rw [show x :: (xs ++ '.' :: F) = (x :: xs) ++ '.' :: F from rfl,
    splitOnChar_append '.' (x :: xs) F hdotX, splitOnChar_not_mem '.' F hdotF]
  simp only [List.isEmpty_cons, Bool.false_and]
  rw [if_neg (by simp)]
  rw [if_pos ?_]
  · simp only [Option.map_some', one_mul]
  · rw [Bool.and_eq_true_iff]
    exact ⟨List.all_eq_true.mpr (fun c hc => hXd c hc),
      List.all_eq_true.mpr (fun c hc => hFd c hc)⟩

/-- Claim C7 (confirmed): for every non-negative amount with two decimal
digits (`n` cents), parsing the formatted rendering gives the amount back:
`parse_amount(format_amount(n / 100)) = n / 100`. -/
theorem claim7_amount_roundtrip :
    ∀ n : ℕ, parseBrlMoney (.vstr (formatBrl (some ((n : ℚ) / 100)))) =
      some ((n : ℚ) / 100) := by
  intro n
  have hd1 : n % 100 / 10 < 10 := by
    have h100 : n % 100 < 100 := Nat.mod_lt _ (by omega)
    omega
  have hd0 : n % 100 % 10 < 10 := Nat.mod_lt _ (by omega)
  have hfloor : (⌊(n : ℚ) / 100 * 100 + 1 / 2⌋ : ℤ) = (n : ℤ) := by
    have h1 : (n : ℚ) / 100 * 100 + 1 / 2 = ((n : ℤ) : ℚ) + 1 / 2 := by
      push_cast
      field_simp
    rw [h1, Int.floor_int_add]
    have h2 : (⌊(1 / 2 : ℚ)⌋ : ℤ) = 0 := by
      rw [Int.floor_eq_zero_iff]
      constructor <;> norm_num
    rw [h2, add_zero]
  have hfmt : formatBrl (some ((n : ℚ) / 100)) =
      String.mk ('R' :: '$' :: ' ' :: formatCents n) := by
    simp only [formatBrl, hfloor]
    rw [if_neg (by omega), Int.toNat_natCast]
  rw [hfmt]
  show parseBrlChars ('R' :: '$' :: ' ' :: formatCents n) = some ((n : ℚ) / 100)
  have hAchars := formatCents_chars n
  have hAnospace : ∀ c ∈ formatCents n, isPySpace c = false := by
    intro c hc
    rcases hAchars c hc with h | h | h
    · exact (digit_ne_special c h).2.2.2.2.2.2.2.2
    · subst h
      decide
    · subst h
      decide
  have hAnoR : 'R' ∉ formatCents n := by
    intro hm
    rcases hAchars _ hm with h | h | h
    · exact (digit_ne_special _ h).2.2.2.2.2.2.1 rfl
    · exact absurd h (by decide)
    · exact absurd h (by decide)
  have hform : 'R' :: '$' :: ' ' :: formatCents n =
      ('R' :: '$' :: ' ' :: (group3 (natDecimal (n / 100)) ++
        [',', digitChar10 (n % 100 / 10)])) ++ [digitChar10 (n % 100 % 10)] := by
    simp [formatCents, List.append_assoc]
  have hlast : ('R' :: '$' :: ' ' :: formatCents n).getLast? =
      some (digitChar10 (n % 100 % 10)) := by
    rw [hform]
    exact List.getLast?_concat _
  have htrim : trimChars ('R' :: '$' :: ' ' :: formatCents n) =
      'R' :: '$' :: ' ' :: formatCents n := by
    apply trimChars_of_ends
    · intro c hc
      have hcr : c = 'R' := by
        have : some 'R' = some c := hc
        injection this with h
        exact h.symm
      subst hcr
      decide
    · intro c hc
      rw [hlast] at hc
      injection hc with h
      subst h
      exact (digit_ne_special _ (isDigit_digitChar10 _ hd0)).2.2.2.2.2.2.2.2
  have hne : ¬ ('R' :: '$' :: ' ' :: formatCents n = [] ∨
      'R' :: '$' :: ' ' :: formatCents n = ['-']) := by
    rintro (h | h)
    · simp at h
    · have h1 : 'R' = '-' := by
        have hh := congrArg (fun l => l.head?) h
        simp only [List.head?] at hh
        injection hh
      exact absurd h1 (by decide)
  have hrs : pyReplace ['R', '$'] [] ('R' :: '$' :: ' ' :: formatCents n) =
      ' ' :: formatCents n := by
    apply pyReplace_rs
    intro hm
    rcases List.mem_cons.mp hm with h | h
    · exact absurd h (by decide)
    · exact hAnoR h
  have hsp : pyReplace [' '] [] (' ' :: formatCents n) = formatCents n := by
    rw [pyReplace_single_del]
    simp only [List.filter_cons]
    rw [if_neg (by simp)]
    apply List.filter_eq_self.mpr
    intro c hc
    have hcs : c ≠ ' ' := by
      intro he
      have hns := hAnospace c hc
      rw [he] at hns
      exact absurd hns (by decide)
    simp [hcs]
  have hcomma : ',' ∈ formatCents n := by
    unfold formatCents
    exact List.mem_append_right _ (List.mem_cons_self _ _)
  have hdotsX : ∀ c ∈ natDecimal (n / 100), (!(c == '.')) = true := by
    intro c hc
    have hcd := (digit_ne_special c (natDecimal_all_digit _ c hc)).2.2.1
    simp [hcd]
  have hnd1 : (digitChar10 (n % 100 / 10)) ≠ '.' :=
    (digit_ne_special _ (isDigit_digitChar10 _ hd1)).2.2.1
  have hnd0 : (digitChar10 (n % 100 % 10)) ≠ '.' :=
    (digit_ne_special _ (isDigit_digitChar10 _ hd0)).2.2.1
  have hdot : pyReplace ['.'] [] (formatCents n) =
      natDecimal (n / 100) ++
        [',', digitChar10 (n % 100 / 10), digitChar10 (n % 100 % 10)] := by
    rw [pyReplace_single_del]
    unfold formatCents
    rw [List.filter_append, group3_filter, List.filter_eq_self.mpr hdotsX]
    congr 1
    rw [List.filter_cons, if_pos (by decide), List.filter_cons,
      if_pos (by simp [hnd1]), List.filter_cons, if_pos (by simp [hnd0]),
      List.filter_nil]
  have hnc1 : (digitChar10 (n % 100 / 10)) ≠ ',' :=
    (digit_ne_special _ (isDigit_digitChar10 _ hd1)).2.2.2.1
  have hnc0 : (digitChar10 (n % 100 % 10)) ≠ ',' :=
    (digit_ne_special _ (isDigit_digitChar10 _ hd0)).2.2.2.1
  have hmapX : (natDecimal (n / 100)).map (fun c => if c = ',' then '.' else c) =
      natDecimal (n / 100) := by
    have hfc : ∀ c ∈ natDecimal (n / 100),
        (fun c => if c = ',' then '.' else c) c = (fun c => c) c := by
      intro c hc
      have hcn := (digit_ne_special c (natDecimal_all_digit _ c hc)).2.2.2.1
      simp [hcn]
    rw [List.map_congr_left hfc]
    exact List.map_id' _
  have hmap : pyReplace [','] ['.'] (natDecimal (n / 100) ++
      [',', digitChar10 (n % 100 / 10), digitChar10 (n % 100 % 10)]) =
      natDecimal (n / 100) ++
        '.' :: [digitChar10 (n % 100 / 10), digitChar10 (n % 100 % 10)] := by
    rw [pyReplace_single_map, List.map_append, hmapX]
    congr 1
    simp only [List.map_cons, List.map_nil]
    simp [hnc1, hnc0]
  have hFd : ∀ c ∈ [digitChar10 (n % 100 / 10), digitChar10 (n % 100 % 10)],
      c.isDigit = true := by
    intro c hc
    rcases List.mem_cons.mp hc with rfl | hc'
    · exact isDigit_digitChar10 _ hd1
    · rcases List.mem_singleton.mp hc' with rfl
      exact isDigit_digitChar10 _ hd0
  have hvF : valDigits [digitChar10 (n % 100 / 10), digitChar10 (n % 100 % 10)] =
      n % 100 := by
    show 10 * (10 * 0 + charVal (digitChar10 (n % 100 / 10))) +
      charVal (digitChar10 (n % 100 % 10)) = n % 100
    rw [charVal_digitChar10 _ hd1, charVal_digitChar10 _ hd0]
    omega
  simp only [parseBrlChars, htrim]
  rw [if_neg hne, hrs, hsp, if_pos hcomma, hdot, hmap,
    pyFloat_canonical _ _ (natDecimal_ne_nil _) (natDecimal_all_digit _) hFd,
    valDigits_natDecimal, hvF]
  refine congrArg some ?_
  have hpow : ((10 : ℚ) ^
      ([digitChar10 (n % 100 / 10), digitChar10 (n % 100 % 10)] : List Char).length) =
      100 := by
    norm_num
  rw [hpow]
  have hsplit : 100 * (n / 100) + n % 100 = n := Nat.div_add_mod n 100
  have hcast : ((n / 100 : ℕ) : ℚ) * 100 + ((n % 100 : ℕ) : ℚ) = (n : ℚ) := by
    have hq := congrArg (fun m : ℕ => (m : ℚ)) hsplit
    push_cast at hq
    linarith
  rw [eq_div_iff (by norm_num : (100 : ℚ) ≠ 0)]
  rw [add_mul, div_mul_cancel₀ _ (by norm_num : (100 : ℚ) ≠ 0)]
  linarith
